import Mathlib

/-!
Verification of the transaction scheduler of coreblocks
(`src/coreblocks/transactions/core.py`).

The development shallowly embeds the build-time data structures and the
generated per-cycle combinational logic of the transaction subsystem:

* `mmGo` / `methodMap` — the recursive helper `rec` inside
  `MethodMap.__init__` and the loop over transactions (lines 60-76);
* the conflict / priority / relation graph construction of
  `TransactionManager._conflict_graph` (lines 227-272), together with a
  deterministic Kahn-style topological sort standing for Python's
  `graphlib.TopologicalSorter.static_order`;
* `eagerGo` — the per-connected-component grant logic generated by
  `eager_deterministic_cc_scheduler` (lines 97-134);
* `Method.__init__` / `Method.like` and the per-method admission logic of
  `TransactionManager.elaborate` (lines 395-404, 720-771);
* the simultaneity-group merging of `TransactionManager._simultaneous`
  (lines 285-370).

Transactions and methods are represented by natural-number indices into
arenas; `amaranth` combinational assignments become pure Boolean
functions of the current cycle's `request`/`ready` inputs.
-/

namespace CoreblocksTrans

/-! ## Method-map construction (`MethodMap.__init__`)

A method arena: the per-`Method` data consulted by `MethodMap.__init__`.
`defined` is the `defined` flag of the method, `uses` the list of keys of
its `method_uses` dictionary (methods directly called by the method's
body).  Methods are identified with indices `0, ..., n - 1`. -/
structure MEnv where
  n : Nat
  defined : Nat → Bool
  uses : Nat → List Nat

/-- Well-formedness of the arena: a method's direct uses are methods of
the arena, and they are duplicate-free (keys of a Python dict). -/
def MEnv.wf (env : MEnv) : Prop :=
  ∀ i, i < env.n → (∀ j ∈ env.uses i, j < env.n) ∧ (env.uses i).Nodup

instance (env : MEnv) : Decidable env.wf := by
  unfold MEnv.wf; infer_instance

/-- Errors raised by `MethodMap.__init__`: calling a method which is not
defined yet, or calling a method twice from the same transaction.
`fuelOut` is an artefact of the fueled embedding; it is proved
unreachable for well-formed arenas. -/
inductive MMErr where
  | undefinedMethod
  | doubleUse
  | fuelOut
deriving DecidableEq, Repr

/-- Shallow embedding of the recursive helper `rec` of
`MethodMap.__init__`.  `acc` is the list `methods_by_transaction[t]`
built so far, `q` the pending uses of the current source.  For each
pending method the code first checks `method.defined`, then membership
in the accumulated list, appends the method and recurses into the
method's own uses before continuing with the remaining queue. -/
def mmGo (env : MEnv) : Nat → List Nat → List Nat → Except MMErr (List Nat)
  | _, acc, [] => .ok acc
  | 0, _, _ :: _ => .error .fuelOut
  | fuel + 1, acc, i :: rest =>
    if env.defined i = false then .error .undefinedMethod
    else if i ∈ acc then .error .doubleUse
    else
      match mmGo env fuel (acc ++ [i]) (env.uses i) with
      | .error e => .error e
      | .ok acc2 => mmGo env fuel acc2 rest

/-- The transitive method list of one transaction whose direct uses are
`src` (the body of the `for transaction in transactions` loop). -/
def mmOfTrans (env : MEnv) (src : List Nat) : Except MMErr (List Nat) :=
  mmGo env (env.n + 1) [] src

/-- `MethodMap.__init__` over the whole transaction list: transactions
are given by their direct-use lists, processed in registration order,
aborting at the first error. -/
def methodMap (env : MEnv) (ts : List (List Nat)) : Except MMErr (List (List Nat)) :=
  ts.mapM (mmOfTrans env)

/-- `transactions_by_method`: the transactions (as positions in the
transaction list) whose computed transitive method list contains `m`,
in registration order. -/
def tbmOf (L : List (List Nat)) (m : Nat) : List Nat :=
  (List.range L.length).filter (fun k => m ∈ L.getD k [])

/-- `ReachP env src p m` holds when method `m` is reached from a source
with direct-use list `src` along the call path `p` (the list of
intermediate methods whose bodies are traversed, outermost first). -/
inductive ReachP (env : MEnv) : List Nat → List Nat → Nat → Prop where
  | direct {src : List Nat} {m : Nat} : m ∈ src → ReachP env src [] m
  | step {src : List Nat} {a m : Nat} {p : List Nat} :
      a ∈ src → ReachP env (env.uses a) p m → ReachP env src (a :: p) m

/-- Method `m` is used, directly or through transitively called
methods, by a source with direct-use list `src`. -/
def Reach (env : MEnv) (src : List Nat) (m : Nat) : Prop :=
  ∃ p, ReachP env src p m

/-- The same method is reachable along two distinct call paths. -/
def DoubleReach (env : MEnv) (src : List Nat) : Prop :=
  ∃ m p q, ReachP env src p m ∧ ReachP env src q m ∧ p ≠ q

/-- A transaction makes `MethodMap.__init__` raise when it reaches an
undefined method or reaches some method twice. -/
def BadT (env : MEnv) (src : List Nat) : Prop :=
  (∃ x, Reach env src x ∧ env.defined x = false) ∨ DoubleReach env src

/-- Sum of the use-lists of the listed methods, as a multiset. -/
def sumUses (env : MEnv) (l : List Nat) : Multiset Nat :=
  (l.map (fun a => ((env.uses a : List Nat) : Multiset Nat))).sum

theorem sumUses_nil (env : MEnv) : sumUses env [] = 0 := rfl

theorem sumUses_cons (env : MEnv) (a : Nat) (l : List Nat) :
    sumUses env (a :: l) = (env.uses a : Multiset Nat) + sumUses env l := by
  simp [sumUses]

theorem sumUses_append (env : MEnv) (l₁ l₂ : List Nat) :
    sumUses env (l₁ ++ l₂) = sumUses env l₁ + sumUses env l₂ := by
  induction l₁ with
  | nil => simp [sumUses_nil, sumUses]
  | cons a l ih => simp [sumUses_cons, ih, add_assoc]

theorem mmGo_nil (env : MEnv) (fuel : Nat) (acc : List Nat) :
    mmGo env fuel acc [] = .ok acc := by
  cases fuel <;> rfl

theorem mmGo_cons (env : MEnv) (fuel : Nat) (acc : List Nat) (i : Nat) (rest : List Nat) :
    mmGo env (fuel + 1) acc (i :: rest) =
      (if env.defined i = false then .error .undefinedMethod
       else if i ∈ acc then .error .doubleUse
       else
         match mmGo env fuel (acc ++ [i]) (env.uses i) with
         | .error e => .error e
         | .ok acc2 => mmGo env fuel acc2 rest) := rfl

/-- A successful run appends a suffix to the accumulator, and the
result, as a multiset, consists of the accumulator, the queue, and the
direct uses of every newly appended method (each such method's use-list
is traversed exactly once). -/
theorem mm_ok_parts (env : MEnv) :
    ∀ (fuel : Nat) (acc q res : List Nat),
      mmGo env fuel acc q = .ok res →
      ∃ ext, res = acc ++ ext ∧
        (res : Multiset Nat) = (acc : Multiset Nat) + (q : Multiset Nat) + sumUses env ext := by
  intro fuel
  induction fuel with
  | zero =>
    intro acc q res h
    cases q with
    | nil =>
      rw [mmGo_nil] at h
      cases h
      exact ⟨[], by simp, by simp [sumUses_nil]⟩
    | cons i rest => exact absurd h (by simp [mmGo])
  | succ fuel ih =>
    intro acc q res h
    cases q with
    | nil =>
      rw [mmGo_nil] at h
      cases h
      exact ⟨[], by simp, by simp [sumUses_nil]⟩
    | cons i rest =>
      rw [mmGo_cons] at h
      by_cases hdef : env.defined i = false
      · simp [hdef] at h
      · simp only [hdef, if_false] at h
        by_cases hmem : i ∈ acc
        · simp [hmem] at h
        · simp only [hmem, if_false] at h
          cases hin : mmGo env fuel (acc ++ [i]) (env.uses i) with
          | error e => rw [hin] at h; cases h
          | ok acc2 =>
            rw [hin] at h
            obtain ⟨ext₁, he₁, hm₁⟩ := ih (acc ++ [i]) (env.uses i) acc2 hin
            obtain ⟨ext₂, he₂, hm₂⟩ := ih acc2 rest res h
            refine ⟨[i] ++ ext₁ ++ ext₂, ?_, ?_⟩
            · rw [he₂, he₁]; simp
            · rw [hm₂, hm₁]
              rw [sumUses_append, sumUses_append, sumUses_cons, sumUses_nil]
              have hc : (i :: rest) = [i] ++ rest := rfl
              rw [hc]
              simp only [← Multiset.coe_add]
              abel

/-- A successful run preserves duplicate-freeness of the accumulator. -/
theorem mm_nodup (env : MEnv) :
    ∀ (fuel : Nat) (acc q res : List Nat),
      mmGo env fuel acc q = .ok res → acc.Nodup → res.Nodup := by
  intro fuel
  induction fuel with
  | zero =>
    intro acc q res h hacc
    cases q with
    | nil => rw [mmGo_nil] at h; cases h; exact hacc
    | cons i rest => exact absurd h (by simp [mmGo])
  | succ fuel ih =>
    intro acc q res h hacc
    cases q with
    | nil => rw [mmGo_nil] at h; cases h; exact hacc
    | cons i rest =>
      rw [mmGo_cons] at h
      by_cases hdef : env.defined i = false
      · simp [hdef] at h
      · simp only [hdef, if_false] at h
        by_cases hmem : i ∈ acc
        · simp [hmem] at h
        · simp only [hmem, if_false] at h
          cases hin : mmGo env fuel (acc ++ [i]) (env.uses i) with
          | error e => rw [hin] at h; cases h
          | ok acc2 =>
            rw [hin] at h
            have h1 : (acc ++ [i]).Nodup := by
              simp [List.nodup_append, hacc, hmem]
            exact ih acc2 rest res h (ih (acc ++ [i]) (env.uses i) acc2 hin h1)

/-- Successful runs keep all indices within the arena. -/
theorem mm_bound (env : MEnv) (hwf : env.wf) :
    ∀ (fuel : Nat) (acc q res : List Nat),
      (∀ a ∈ acc, a < env.n) → (∀ i ∈ q, i < env.n) →
      mmGo env fuel acc q = .ok res → ∀ x ∈ res, x < env.n := by
  intro fuel
  induction fuel with
  | zero =>
    intro acc q res hacc hq h
    cases q with
    | nil => rw [mmGo_nil] at h; cases h; exact hacc
    | cons i rest => exact absurd h (by simp [mmGo])
  | succ fuel ih =>
    intro acc q res hacc hq h
    cases q with
    | nil => rw [mmGo_nil] at h; cases h; exact hacc
    | cons i rest =>
      rw [mmGo_cons] at h
      by_cases hdef : env.defined i = false
      · simp [hdef] at h
      · simp only [hdef, if_false] at h
        by_cases hmem : i ∈ acc
        · simp [hmem] at h
        · simp only [hmem, if_false] at h
          cases hin : mmGo env fuel (acc ++ [i]) (env.uses i) with
          | error e => rw [hin] at h; cases h
          | ok acc2 =>
            rw [hin] at h
            have hi : i < env.n := hq i (by simp)
            have h1 : ∀ a ∈ acc ++ [i], a < env.n := by
              intro a ha
              rcases List.mem_append.1 ha with ha | ha
              · exact hacc a ha
              · simp at ha; omega
            have h2 : ∀ x ∈ acc2, x < env.n :=
              ih (acc ++ [i]) (env.uses i) acc2 h1 ((hwf i hi).1) hin
            exact ih acc2 rest res h2 (fun j hj => hq j (by simp [hj])) h

theorem reachP_mono (env : MEnv) {src src' p : List Nat} {m : Nat}
    (hsub : ∀ x ∈ src, x ∈ src') (h : ReachP env src p m) : ReachP env src' p m := by
  cases h with
  | direct hm => exact .direct (hsub _ hm)
  | step ha hr => exact .step (hsub _ ha) hr

theorem reach_mono (env : MEnv) {src src' : List Nat} {m : Nat}
    (hsub : ∀ x ∈ src, x ∈ src') (h : Reach env src m) : Reach env src' m := by
  obtain ⟨p, hp⟩ := h
  exact ⟨p, reachP_mono env hsub hp⟩

theorem reachP_append (env : MEnv) {src p : List Nat} {a : Nat}
    (h : ReachP env src p a) :
    ∀ {p2 : List Nat} {m : Nat}, ReachP env (env.uses a) p2 m →
      ReachP env src (p ++ a :: p2) m := by
  induction h with
  | direct hm => intro p2 m h2; exact .step hm h2
  | step ha _ ih => intro p2 m h2; exact .step ha (ih h2)

theorem reachP_snoc (env : MEnv) {src p : List Nat} {a m : Nat}
    (h : ReachP env src p a) (hm : m ∈ env.uses a) :
    ReachP env src (p ++ [a]) m :=
  reachP_append env h (.direct hm)

/-- Snoc view of a reach path: a method is reached either directly or
by a final hop out of the use-list of a reachable method. -/
theorem reachP_snoc_view (env : MEnv) {src p : List Nat} {m : Nat}
    (h : ReachP env src p m) :
    (p = [] ∧ m ∈ src) ∨
      ∃ p0 a, p = p0 ++ [a] ∧ ReachP env src p0 a ∧ m ∈ env.uses a := by
  induction h with
  | direct hm => exact Or.inl ⟨rfl, hm⟩
  | @step src a m p ha _ ih =>
    rcases ih with ⟨hp, hm⟩ | ⟨p0, b, hp, hr, hm⟩
    · subst hp
      exact Or.inr ⟨[], a, rfl, .direct ha, hm⟩
    · subst hp
      exact Or.inr ⟨a :: p0, b, rfl, .step ha hr, hm⟩

theorem reach_trans (env : MEnv) {S q : List Nat} {x : Nat}
    (hq : ∀ i ∈ q, Reach env S i) (h : Reach env q x) : Reach env S x := by
  obtain ⟨p, hp⟩ := h
  induction hp with
  | direct hm => exact hq _ hm
  | @step src a m p ha hr ih =>
    obtain ⟨pa, hpa⟩ := hq a ha
    exact ⟨pa ++ a :: p, reachP_append env hpa hr⟩

/-- A successful run contains every queued method, and every newly
appended method is defined with all its direct uses contained in the
result. -/
theorem mm_closure (env : MEnv) :
    ∀ (fuel : Nat) (acc q res : List Nat),
      mmGo env fuel acc q = .ok res →
      (∀ i ∈ q, i ∈ res) ∧
      (∀ x ∈ res, x ∈ acc ∨ (env.defined x = true ∧ ∀ j ∈ env.uses x, j ∈ res)) := by
  intro fuel
  induction fuel with
  | zero =>
    intro acc q res h
    cases q with
    | nil =>
      rw [mmGo_nil] at h; cases h
      exact ⟨by simp, fun x hx => Or.inl hx⟩
    | cons i rest => exact absurd h (by simp [mmGo])
  | succ fuel ih =>
    intro acc q res h
    cases q with
    | nil =>
      rw [mmGo_nil] at h; cases h
      exact ⟨by simp, fun x hx => Or.inl hx⟩
    | cons i rest =>
      rw [mmGo_cons] at h
      cases hdef : env.defined i with
      | false => simp [hdef] at h
      | true =>
        rw [if_neg (by simp [hdef])] at h
        by_cases hmem : i ∈ acc
        · rw [if_pos hmem] at h; cases h
        · rw [if_neg hmem] at h
          cases hin : mmGo env fuel (acc ++ [i]) (env.uses i) with
          | error e => rw [hin] at h; simp at h
          | ok acc2 =>
            rw [hin] at h
            obtain ⟨hq₁, hcl₁⟩ := ih (acc ++ [i]) (env.uses i) acc2 hin
            obtain ⟨hq₂, hcl₂⟩ := ih acc2 rest res h
            obtain ⟨ext₂, he₂, -⟩ := mm_ok_parts env fuel acc2 rest res h
            have hsub₂ : ∀ x ∈ acc2, x ∈ res := by
              intro x hx; rw [he₂]; exact List.mem_append.2 (Or.inl hx)
            obtain ⟨ext₁, he₁, -⟩ := mm_ok_parts env fuel (acc ++ [i]) (env.uses i) acc2 hin
            have hi_acc2 : i ∈ acc2 := by
              rw [he₁]; simp
            refine ⟨?_, ?_⟩
            · intro j hj
              rcases List.mem_cons.1 hj with hj | hj
              · subst hj; exact hsub₂ _ hi_acc2
              · exact hq₂ _ hj
            · intro x hx
              rcases hcl₂ x hx with hx2 | hx2
              · rcases hcl₁ x hx2 with hx1 | hx1
                · rcases List.mem_append.1 hx1 with hx1 | hx1
                  · exact Or.inl hx1
                  · simp at hx1; subst hx1
                    exact Or.inr ⟨hdef, fun j hj => hsub₂ _ (hq₁ _ hj)⟩
                · exact Or.inr ⟨hx1.1, fun j hj => hsub₂ _ (hx1.2 j hj)⟩
              · exact Or.inr hx2

/-- Everything in a successful result is either old or reachable from
the queue. -/
theorem mm_reach (env : MEnv) :
    ∀ (fuel : Nat) (acc q res : List Nat),
      mmGo env fuel acc q = .ok res →
      ∀ x ∈ res, x ∈ acc ∨ Reach env q x := by
  intro fuel
  induction fuel with
  | zero =>
    intro acc q res h x hx
    cases q with
    | nil => rw [mmGo_nil] at h; cases h; exact Or.inl hx
    | cons i rest => exact absurd h (by simp [mmGo])
  | succ fuel ih =>
    intro acc q res h x hx
    cases q with
    | nil => rw [mmGo_nil] at h; cases h; exact Or.inl hx
    | cons i rest =>
      rw [mmGo_cons] at h
      cases hdef : env.defined i with
      | false => simp [hdef] at h
      | true =>
        rw [if_neg (by simp [hdef])] at h
        by_cases hmem : i ∈ acc
        · rw [if_pos hmem] at h; cases h
        · rw [if_neg hmem] at h
          cases hin : mmGo env fuel (acc ++ [i]) (env.uses i) with
          | error e => rw [hin] at h; simp at h
          | ok acc2 =>
            rw [hin] at h
            rcases ih acc2 rest res h x hx with hx2 | hx2
            · rcases ih (acc ++ [i]) (env.uses i) acc2 hin x hx2 with hx1 | hx1
              · rcases List.mem_append.1 hx1 with hx1 | hx1
                · exact Or.inl hx1
                · simp at hx1; subst hx1
                  exact Or.inr ⟨[], .direct (by simp)⟩
              · refine Or.inr (reach_trans env ?_ hx1)
                intro j hj
                exact ⟨[i], .step (by simp) (.direct hj)⟩
            · exact Or.inr (reach_mono env (by intro y hy; simp [hy]) hx2)

/-- A successful top-level run collects every reachable method. -/
theorem mm_complete (env : MEnv) (fuel : Nat) (q res : List Nat)
    (h : mmGo env fuel [] q = .ok res) :
    ∀ x, Reach env q x → x ∈ res := by
  obtain ⟨hq, hcl⟩ := mm_closure env fuel [] q res h
  have hstep : ∀ (src p : List Nat) (x : Nat), ReachP env src p x →
      (∀ i ∈ src, i ∈ res) → x ∈ res := by
    intro src p x hr
    induction hr with
    | direct hm => intro hsrc; exact hsrc _ hm
    | @step src a m p ha _ ih =>
      intro hsrc
      have haR : a ∈ res := hsrc _ ha
      rcases hcl a haR with h0 | h0
      · cases h0
      · exact ih h0.2
  intro x hx
  obtain ⟨p, hp⟩ := hx
  exact hstep q p x hp hq

/-- On a successful top-level run every reachable method is defined. -/
theorem mm_ok_defined (env : MEnv) (fuel : Nat) (q res : List Nat)
    (h : mmGo env fuel [] q = .ok res) :
    ∀ x, Reach env q x → env.defined x = true := by
  intro x hx
  have hxr : x ∈ res := mm_complete env fuel q res h x hx
  obtain ⟨-, hcl⟩ := mm_closure env fuel [] q res h
  rcases hcl x hxr with h0 | h0
  · cases h0
  · exact h0.1

/-- With enough fuel the embedding never runs out: the accumulator is a
duplicate-free list of arena indices, so the recursion depth is bounded
by the arena size. -/
theorem mm_no_fuel (env : MEnv) (hwf : env.wf) :
    ∀ (fuel : Nat) (acc q : List Nat),
      acc.Nodup → (∀ a ∈ acc, a < env.n) → (∀ i ∈ q, i < env.n) →
      env.n + 1 ≤ fuel + acc.length →
      mmGo env fuel acc q ≠ .error .fuelOut := by
  intro fuel
  induction fuel with
  | zero =>
    intro acc q hnd hacc hq hfuel
    cases q with
    | nil => rw [mmGo_nil]; simp
    | cons i rest =>
      exfalso
      have hcard : acc.length ≤ env.n := by
        have h1 : acc.toFinset.card = acc.length := List.toFinset_card_of_nodup hnd
        have h2 : acc.toFinset ⊆ Finset.range env.n := by
          intro a ha
          simp only [List.mem_toFinset] at ha
          simp [hacc a ha]
        have := Finset.card_le_card h2
        simp [h1, Finset.card_range] at this
        exact this
      omega
  | succ fuel ih =>
    intro acc q hnd hacc hq hfuel
    cases q with
    | nil => rw [mmGo_nil]; simp
    | cons i rest =>
      rw [mmGo_cons]
      cases hdef : env.defined i with
      | false => simp
      | true =>
        rw [if_neg (by simp [hdef])]
        by_cases hmem : i ∈ acc
        · rw [if_pos hmem]; simp
        · rw [if_neg hmem]
          have hi : i < env.n := hq i (by simp)
          have hnd1 : (acc ++ [i]).Nodup := by
            simp [List.nodup_append, hnd, hmem]
          have hacc1 : ∀ a ∈ acc ++ [i], a < env.n := by
            intro a ha
            rcases List.mem_append.1 ha with ha | ha
            · exact hacc a ha
            · simp at ha; omega
          cases hin : mmGo env fuel (acc ++ [i]) (env.uses i) with
          | error e =>
            cases e with
            | fuelOut =>
              exact absurd hin (ih (acc ++ [i]) (env.uses i) hnd1 hacc1
                ((hwf i hi).1) (by simp; omega))
            | undefinedMethod => simp
            | doubleUse => simp
          | ok acc2 =>
            have hnd2 : acc2.Nodup := mm_nodup env fuel (acc ++ [i]) (env.uses i) acc2 hin hnd1
            have hacc2 : ∀ a ∈ acc2, a < env.n :=
              mm_bound env hwf fuel (acc ++ [i]) (env.uses i) acc2 hacc1 ((hwf i hi).1) hin
            obtain ⟨ext₁, he₁, -⟩ := mm_ok_parts env fuel (acc ++ [i]) (env.uses i) acc2 hin
            have hlen : acc.length + 1 ≤ acc2.length := by
              rw [he₁]; simp
            exact ih acc2 rest hnd2 hacc2 (fun j hj => hq j (by simp [hj])) (by omega)

/-- An `undefinedMethod` error pinpoints a reachable undefined method. -/
theorem mm_err_undef (env : MEnv) :
    ∀ (fuel : Nat) (acc q : List Nat),
      mmGo env fuel acc q = .error .undefinedMethod →
      ∃ x, Reach env q x ∧ env.defined x = false := by
  intro fuel
  induction fuel with
  | zero =>
    intro acc q h
    cases q with
    | nil => rw [mmGo_nil] at h; cases h
    | cons i rest => simp [mmGo] at h
  | succ fuel ih =>
    intro acc q h
    cases q with
    | nil => rw [mmGo_nil] at h; cases h
    | cons i rest =>
      rw [mmGo_cons] at h
      cases hdef : env.defined i with
      | false =>
        exact ⟨i, ⟨[], .direct (by simp)⟩, hdef⟩
      | true =>
        rw [if_neg (by simp [hdef])] at h
        by_cases hmem : i ∈ acc
        · rw [if_pos hmem] at h; cases h
        · rw [if_neg hmem] at h
          cases hin : mmGo env fuel (acc ++ [i]) (env.uses i) with
          | error e =>
            rw [hin] at h
            have he : e = .undefinedMethod := by
              have : Except.error (ε := MMErr) (α := List Nat) e = .error .undefinedMethod := h
              cases this; rfl
            subst he
            obtain ⟨x, hx, hxd⟩ := ih (acc ++ [i]) (env.uses i) hin
            obtain ⟨p, hp⟩ := hx
            exact ⟨x, ⟨i :: p, .step (by simp) hp⟩, hxd⟩
          | ok acc2 =>
            rw [hin] at h
            obtain ⟨x, hx, hxd⟩ := ih acc2 rest h
            exact ⟨x, reach_mono env (by intro y hy; simp [hy]) hx, hxd⟩

theorem count_sumUses (env : MEnv) (m : Nat) :
    ∀ l : List Nat, (sumUses env l).count m = (l.map (fun a => (env.uses a).count m)).sum := by
  intro l
  induction l with
  | nil => simp [sumUses_nil]
  | cons a t ih => simp [sumUses_cons, Multiset.coe_count, ih]

theorem exists_one_le_of_sum (f : Nat → Nat) :
    ∀ l : List Nat, 1 ≤ (l.map f).sum → ∃ b ∈ l, 1 ≤ f b := by
  intro l
  induction l with
  | nil => simp
  | cons a t ih =>
    intro h
    by_cases ha : 1 ≤ f a
    · exact ⟨a, by simp, ha⟩
    · have : 1 ≤ (t.map f).sum := by simp at h ⊢; omega
      obtain ⟨b, hb, hfb⟩ := ih this
      exact ⟨b, by simp [hb], hfb⟩

theorem exists_two_of_sum (f : Nat → Nat) :
    ∀ l : List Nat, l.Nodup → (∀ a ∈ l, f a ≤ 1) → 2 ≤ (l.map f).sum →
      ∃ a ∈ l, ∃ b ∈ l, a ≠ b ∧ 1 ≤ f a ∧ 1 ≤ f b := by
  intro l
  induction l with
  | nil => simp
  | cons a t ih =>
    intro hnd hle h
    simp only [List.map_cons, List.sum_cons] at h
    by_cases ha : 1 ≤ f a
    · have hfa : f a = 1 := le_antisymm (hle a (by simp)) ha
      have : 1 ≤ (t.map f).sum := by omega
      obtain ⟨b, hb, hfb⟩ := exists_one_le_of_sum f t this
      have hab : a ≠ b := fun he => (List.nodup_cons.1 hnd).1 (he ▸ hb)
      exact ⟨a, by simp, b, by simp [hb], hab, ha, hfb⟩
    · have : 2 ≤ (t.map f).sum := by omega
      obtain ⟨x, hx, y, hy, hxy, h1, h2⟩ :=
        ih (List.nodup_cons.1 hnd).2 (fun b hb => hle b (by simp [hb])) this
      exact ⟨x, by simp [hx], y, by simp [hy], hxy, h1, h2⟩

theorem snoc_ne_of_last_ne {p₁ p₂ : List Nat} {a b : Nat} (hab : a ≠ b) :
    p₁ ++ [a] ≠ p₂ ++ [b] := by
  intro h
  have := congrArg List.getLast? h
  simp [List.getLast?_concat] at this
  exact hab this

theorem snoc_ne_nil (p : List Nat) (a : Nat) : ([] : List Nat) ≠ p ++ [a] := by
  intro h
  have := congrArg List.length h
  simp at this

/-- Two occurrences of the same method among the root uses and the
use-lists of reachable methods yield two distinct reach paths. -/
theorem double_of_two_occurrences (env : MEnv) (S : List Nat) (m : Nat)
    (hS : S.Nodup) (hwf : env.wf)
    (acc : List Nat) (hnd : acc.Nodup) (haccn : ∀ a ∈ acc, a < env.n)
    (hreach : ∀ a ∈ acc, Reach env S a)
    (hcnt : 2 ≤ S.count m + (acc.map (fun a => (env.uses a).count m)).sum) :
    DoubleReach env S := by
  have hS1 : S.count m ≤ 1 := List.nodup_iff_count_le_one.1 hS m
  have hle : ∀ a ∈ acc, (env.uses a).count m ≤ 1 := by
    intro a ha
    exact List.nodup_iff_count_le_one.1 ((hwf a (haccn a ha)).2) m
  by_cases hsum : 2 ≤ (acc.map (fun a => (env.uses a).count m)).sum
  · obtain ⟨a, haa, b, hbb, hab, h1, h2⟩ := exists_two_of_sum _ acc hnd
      (fun a ha => hle a ha) hsum
    have hma : m ∈ env.uses a := List.count_pos_iff.1 h1
    have hmb : m ∈ env.uses b := List.count_pos_iff.1 h2
    obtain ⟨pa, hpa⟩ := hreach a haa
    obtain ⟨pb, hpb⟩ := hreach b hbb
    exact ⟨m, pa ++ [a], pb ++ [b], reachP_snoc env hpa hma,
      reachP_snoc env hpb hmb, snoc_ne_of_last_ne hab⟩
  · have hS' : 1 ≤ S.count m := by omega
    have hsum' : 1 ≤ (acc.map (fun a => (env.uses a).count m)).sum := by omega
    have hmS : m ∈ S := List.count_pos_iff.1 hS'
    obtain ⟨a, haa, h1⟩ := exists_one_le_of_sum _ acc hsum'
    have hma : m ∈ env.uses a := List.count_pos_iff.1 h1
    obtain ⟨pa, hpa⟩ := hreach a haa
    exact ⟨m, [], pa ++ [a], .direct hmS, reachP_snoc env hpa hma,
      snoc_ne_nil pa a⟩

/-- A `doubleUse` error means the same method is reachable along two
distinct call paths from the root use-list `S`. -/
theorem mm_err_double (env : MEnv) (hwf : env.wf) (S : List Nat)
    (hS : S.Nodup) :
    ∀ (fuel : Nat) (acc q : List Nat),
      acc.Nodup → (∀ a ∈ acc, a < env.n) → (∀ i ∈ q, i < env.n) →
      (∀ a ∈ acc, Reach env S a) → (∀ i ∈ q, Reach env S i) →
      ((acc : Multiset Nat) + (q : Multiset Nat) ≤ (S : Multiset Nat) + sumUses env acc) →
      mmGo env fuel acc q = .error .doubleUse → DoubleReach env S := by
  intro fuel
  induction fuel with
  | zero =>
    intro acc q hnd haccn hqn hra hrq hms h
    cases q with
    | nil => rw [mmGo_nil] at h; cases h
    | cons i rest => simp [mmGo] at h
  | succ fuel ih =>
    intro acc q hnd haccn hqn hra hrq hms h
    cases q with
    | nil => rw [mmGo_nil] at h; cases h
    | cons i rest =>
      rw [mmGo_cons] at h
      cases hdef : env.defined i with
      | false => simp [hdef] at h
      | true =>
        rw [if_neg (by simp [hdef])] at h
        by_cases hmem : i ∈ acc
        · -- the raise site: `i` was already collected for this transaction
          have hcnt : 2 ≤ (Multiset.count i ((S : Multiset Nat) + sumUses env acc)) := by
            have hL : 2 ≤ Multiset.count i ((acc : Multiset Nat) + (i :: rest : List Nat)) := by
              simp only [Multiset.count_add, Multiset.coe_count]
              have h1 : 1 ≤ acc.count i := List.count_pos_iff.2 hmem
              have h2 : 1 ≤ (i :: rest).count i := List.count_pos_iff.2 (by simp)
              omega
            exact le_trans hL (Multiset.count_le_of_le i hms)
          rw [Multiset.count_add, Multiset.coe_count, count_sumUses] at hcnt
          exact double_of_two_occurrences env S i hS hwf acc hnd haccn hra hcnt
        · rw [if_neg hmem] at h
          have hi : i < env.n := hqn i (by simp)
          have hnd1 : (acc ++ [i]).Nodup := by simp [List.nodup_append, hnd, hmem]
          have haccn1 : ∀ a ∈ acc ++ [i], a < env.n := by
            intro a ha
            rcases List.mem_append.1 ha with ha | ha
            · exact haccn a ha
            · simp at ha; omega
          have hra1 : ∀ a ∈ acc ++ [i], Reach env S a := by
            intro a ha
            rcases List.mem_append.1 ha with ha | ha
            · exact hra a ha
            · simp at ha; subst ha; exact hrq _ (by simp)
          have hrq1 : ∀ j ∈ env.uses i, Reach env S j := by
            intro j hj
            obtain ⟨pi, hpi⟩ := hrq i (by simp)
            exact ⟨pi ++ [i], reachP_snoc env hpi hj⟩
          have hms_acc : (acc : Multiset Nat) + ([i] : List Nat) ≤
              (S : Multiset Nat) + sumUses env acc := by
            refine le_trans ?_ hms
            refine add_le_add_left ?_ _
            rw [Multiset.coe_le]
            exact ⟨[i], by simp, by simp⟩
          have hms1 : ((acc ++ [i] : List Nat) : Multiset Nat) +
              ((env.uses i : List Nat) : Multiset Nat) ≤
              (S : Multiset Nat) + sumUses env (acc ++ [i]) := by
            rw [sumUses_append, sumUses_cons, sumUses_nil, ← Multiset.coe_add]
            have := add_le_add_right hms_acc ((env.uses i : List Nat) : Multiset Nat)
            calc (acc : Multiset Nat) + ([i] : List Nat) + (env.uses i : List Nat)
                ≤ (S : Multiset Nat) + sumUses env acc + (env.uses i : List Nat) := this
              _ = (S : Multiset Nat) + (sumUses env acc + ((env.uses i : List Nat) + 0)) := by
                  rw [add_zero]; rw [add_assoc]
          cases hin : mmGo env fuel (acc ++ [i]) (env.uses i) with
          | error e =>
            rw [hin] at h
            have he : e = .doubleUse := by
              have : Except.error (ε := MMErr) (α := List Nat) e = .error .doubleUse := h
              cases this; rfl
            subst he
            exact ih (acc ++ [i]) (env.uses i) hnd1 haccn1 ((hwf i hi).1) hra1 hrq1 hms1 hin
          | ok acc2 =>
            rw [hin] at h
            have hnd2 : acc2.Nodup := mm_nodup env fuel (acc ++ [i]) (env.uses i) acc2 hin hnd1
            have haccn2 : ∀ a ∈ acc2, a < env.n :=
              mm_bound env hwf fuel (acc ++ [i]) (env.uses i) acc2 haccn1 ((hwf i hi).1) hin
            have hra2 : ∀ a ∈ acc2, Reach env S a := by
              intro a ha
              rcases mm_reach env fuel (acc ++ [i]) (env.uses i) acc2 hin a ha with h0 | h0
              · exact hra1 a h0
              · exact reach_trans env hrq1 h0
            obtain ⟨ext₁, he₁, hm₁⟩ := mm_ok_parts env fuel (acc ++ [i]) (env.uses i) acc2 hin
            have hms2 : (acc2 : Multiset Nat) + (rest : List Nat) ≤
                (S : Multiset Nat) + sumUses env acc2 := by
              have hbase : (acc : Multiset Nat) + ([i] : List Nat) + (rest : List Nat) ≤
                  (S : Multiset Nat) + sumUses env acc := by
                have h0 : ((acc : Multiset Nat) + ((i :: rest : List Nat) : Multiset Nat)) =
                    (acc : Multiset Nat) + ([i] : List Nat) + (rest : List Nat) := by
                  have hc : (i :: rest) = [i] ++ rest := rfl
                  rw [hc]
                  simp only [← Multiset.coe_add]
                  abel
                rw [← h0]
                exact hms
              have hadd := add_le_add_right hbase
                (((env.uses i : List Nat) : Multiset Nat) + sumUses env ext₁)
              have hL : (acc2 : Multiset Nat) + ((rest : List Nat) : Multiset Nat) =
                  (acc : Multiset Nat) + ([i] : List Nat) + (rest : List Nat) +
                    (((env.uses i : List Nat) : Multiset Nat) + sumUses env ext₁) := by
                rw [hm₁]
                simp only [← Multiset.coe_add]
                abel
              have hR : (S : Multiset Nat) + sumUses env acc2 =
                  (S : Multiset Nat) + sumUses env acc +
                    (((env.uses i : List Nat) : Multiset Nat) + sumUses env ext₁) := by
                rw [he₁, sumUses_append, sumUses_append, sumUses_cons, sumUses_nil]
                abel
              rw [hL, hR]
              exact hadd
            exact ih acc2 rest hnd2 haccn2 (fun j hj => hqn j (by simp [hj]))
              hra2 (fun j hj => hrq j (by simp [hj])) hms2 h

theorem two_mem_le_sum (f : Nat → Nat) :
    ∀ l : List Nat, l.Nodup → ∀ a ∈ l, ∀ b ∈ l, a ≠ b →
      f a + f b ≤ (l.map f).sum := by
  intro l
  induction l with
  | nil => simp
  | cons x t ih =>
    intro hnd a ha b hb hab
    simp only [List.map_cons, List.sum_cons]
    rcases List.mem_cons.1 ha with hax | hat
    · subst hax
      have hbt : b ∈ t := by
        rcases List.mem_cons.1 hb with h0 | h0
        · exact absurd h0.symm hab
        · exact h0
      have : f b ≤ (t.map f).sum :=
        List.single_le_sum (by simp) _ (List.mem_map_of_mem f hbt)
      omega
    · rcases List.mem_cons.1 hb with hbx | hbt
      · subst hbx
        have : f a ≤ (t.map f).sum :=
          List.single_le_sum (by simp) _ (List.mem_map_of_mem f hat)
        omega
      · have := ih (List.nodup_cons.1 hnd).2 a hat b hbt hab
        omega

/-- On a successful top-level run, the result counts each occurrence of
a method among the root uses and the traversed use-lists: the basis of
uniqueness of reach paths. -/
theorem mm_ok_count (env : MEnv) (fuel : Nat) (S res : List Nat)
    (h : mmGo env fuel [] S = .ok res) (m : Nat) :
    res.count m = S.count m + (res.map (fun a => (env.uses a).count m)).sum := by
  obtain ⟨ext, he, hm⟩ := mm_ok_parts env fuel [] S res h
  have hext : ext = res := by simpa using he.symm
  subst hext
  have := congrArg (Multiset.count m) hm
  simpa [Multiset.count_add, Multiset.coe_count, count_sumUses] using this

/-- On a successful top-level run, reach paths are unique: the same
method cannot be reached along two distinct call paths. -/
theorem mm_ok_unique_paths (env : MEnv) (hwf : env.wf) (fuel : Nat) (S res : List Nat)
    (hSr : ∀ i ∈ S, i < env.n)
    (h : mmGo env fuel [] S = .ok res) :
    ∀ p₁ p₂ m, ReachP env S p₁ m → ReachP env S p₂ m → p₁ = p₂ := by
  have hnd : res.Nodup := mm_nodup env fuel [] S res h (by simp)
  have hbound : ∀ x ∈ res, x < env.n := mm_bound env hwf fuel [] S res (by simp) hSr h
  have hcnt := mm_ok_count env fuel S res h
  have hK1 : ∀ m a, m ∈ S → a ∈ res → m ∈ env.uses a → False := by
    intro m a hmS haR hma
    have h1 : 1 ≤ S.count m := List.count_pos_iff.2 hmS
    have h2 : 1 ≤ (env.uses a).count m := List.count_pos_iff.2 hma
    have h3 : (env.uses a).count m ≤ (res.map (fun a => (env.uses a).count m)).sum :=
      List.single_le_sum (by simp) _ (List.mem_map_of_mem _ haR)
    have h4 : res.count m ≤ 1 := List.nodup_iff_count_le_one.1 hnd m
    have := hcnt m
    omega
  have hK2 : ∀ m a b, a ∈ res → b ∈ res → a ≠ b →
      m ∈ env.uses a → m ∈ env.uses b → False := by
    intro m a b haR hbR hab hma hmb
    have h1 : 1 ≤ (env.uses a).count m := List.count_pos_iff.2 hma
    have h2 : 1 ≤ (env.uses b).count m := List.count_pos_iff.2 hmb
    have h3 : (env.uses a).count m + (env.uses b).count m ≤
        (res.map (fun a => (env.uses a).count m)).sum :=
      two_mem_le_sum (fun a => (env.uses a).count m) res hnd a haR b hbR hab
    have h4 : res.count m ≤ 1 := List.nodup_iff_count_le_one.1 hnd m
    have := hcnt m
    omega
  have hcomp : ∀ x, Reach env S x → x ∈ res := mm_complete env fuel S res h
  have main : ∀ k p₁ p₂ m, p₁.length ≤ k →
      ReachP env S p₁ m → ReachP env S p₂ m → p₁ = p₂ := by
    intro k
    induction k with
    | zero =>
      intro p₁ p₂ m hlen h1 h2
      have hp₁ : p₁ = [] := List.eq_nil_of_length_eq_zero (Nat.le_zero.1 hlen)
      subst hp₁
      have hmS : m ∈ S := by
        rcases reachP_snoc_view env h1 with ⟨-, hm⟩ | ⟨p0, a, hp, -, -⟩
        · exact hm
        · exact absurd hp (by simp)
      rcases reachP_snoc_view env h2 with ⟨hp, -⟩ | ⟨p0, a, hp, hra, hma⟩
      · exact hp.symm
      · exact (hK1 m a hmS (hcomp a ⟨p0, hra⟩) hma).elim
    | succ k ih =>
      intro p₁ p₂ m hlen h1 h2
      rcases reachP_snoc_view env h1 with ⟨hp1, hm1⟩ | ⟨p01, a₁, hp1, hra1, hma1⟩
      · subst hp1
        rcases reachP_snoc_view env h2 with ⟨hp2, -⟩ | ⟨p02, a₂, hp2, hra2, hma2⟩
        · exact hp2.symm
        · exact (hK1 m a₂ hm1 (hcomp a₂ ⟨p02, hra2⟩) hma2).elim
      · subst hp1
        rcases reachP_snoc_view env h2 with ⟨hp2, hm2⟩ | ⟨p02, a₂, hp2, hra2, hma2⟩
        · subst hp2
          exact (hK1 m a₁ hm2 (hcomp a₁ ⟨p01, hra1⟩) hma1).elim
        · subst hp2
          by_cases hab : a₁ = a₂
          · subst hab
            have hlen01 : p01.length ≤ k := by
              have := congrArg List.length (rfl : p01 ++ [a₁] = p01 ++ [a₁])
              simp at hlen
              omega
            have := ih p01 p02 a₁ hlen01 hra1 hra2
            rw [this]
          · exact (hK2 m a₁ a₂ (hcomp a₁ ⟨p01, hra1⟩)
              (hcomp a₂ ⟨p02, hra2⟩) hab hma1 hma2).elim
  intro p₁ p₂ m h1 h2
  exact main p₁.length p₁ p₂ m le_rfl h1 h2

/-- Master per-transaction characterisation: the traversal for one
transaction succeeds exactly when the transaction reaches no undefined
method and no method twice. -/
theorem mmOfTrans_ok_iff (env : MEnv) (hwf : env.wf) (S : List Nat)
    (hS : S.Nodup) (hSr : ∀ i ∈ S, i < env.n) :
    (∃ r, mmOfTrans env S = .ok r) ↔ ¬ BadT env S := by
  constructor
  · rintro ⟨r, hr⟩ hbad
    rcases hbad with ⟨x, hx, hxd⟩ | ⟨m, p₁, p₂, h1, h2, hne⟩
    · have := mm_ok_defined env (env.n + 1) S r hr x hx
      rw [this] at hxd
      cases hxd
    · exact hne (mm_ok_unique_paths env hwf (env.n + 1) S r hSr hr p₁ p₂ m h1 h2)
  · intro hbad
    cases hres : mmOfTrans env S with
    | ok r => exact ⟨r, rfl⟩
    | error e =>
      exfalso
      cases e with
      | fuelOut =>
        exact mm_no_fuel env hwf (env.n + 1) [] S (by simp) (by simp) hSr
          (by simp) hres
      | undefinedMethod =>
        obtain ⟨x, hx, hxd⟩ := mm_err_undef env (env.n + 1) [] S hres
        exact hbad (Or.inl ⟨x, hx, hxd⟩)
      | doubleUse =>
        refine hbad (Or.inr ?_)
        refine mm_err_double env hwf S hS (env.n + 1) [] S (by simp) (by simp) hSr
          (by simp) (fun i hi => ⟨[], .direct hi⟩) ?_ hres
        simp [sumUses_nil]

/-- On a successful per-transaction traversal the result is exactly the
set of reachable methods. -/
theorem mmOfTrans_ok_mem (env : MEnv) (S res : List Nat)
    (h : mmOfTrans env S = .ok res) :
    ∀ m, m ∈ res ↔ Reach env S m := by
  intro m
  constructor
  · intro hm
    rcases mm_reach env (env.n + 1) [] S res h m hm with h0 | h0
    · cases h0
    · exact h0
  · exact mm_complete env (env.n + 1) S res h m

theorem methodMap_nil (env : MEnv) : methodMap env [] = .ok [] := rfl

theorem methodMap_cons (env : MEnv) (t : List Nat) (ts : List (List Nat)) :
    methodMap env (t :: ts) =
      (match mmOfTrans env t with
       | .error e => .error e
       | .ok r =>
         match methodMap env ts with
         | .error e => .error e
         | .ok L => .ok (r :: L)) := by
  unfold methodMap
  rw [List.mapM_cons]
  cases mmOfTrans env t with
  | error e => rfl
  | ok r =>
    cases hL : ts.mapM (mmOfTrans env) with
    | error e => simp [hL]; rfl
    | ok L => simp [hL]; rfl

theorem methodMap_ok_iff (env : MEnv) :
    ∀ ts : List (List Nat),
      (∃ L, methodMap env ts = .ok L) ↔ ∀ t ∈ ts, ∃ r, mmOfTrans env t = .ok r := by
  intro ts
  induction ts with
  | nil => simp [methodMap_nil]
  | cons t ts ih =>
    rw [methodMap_cons]
    constructor
    · rintro ⟨L, hL⟩
      cases ht : mmOfTrans env t with
      | error e => rw [ht] at hL; cases hL
      | ok r =>
        rw [ht] at hL
        cases hts : methodMap env ts with
        | error e => rw [hts] at hL; cases hL
        | ok L2 =>
          intro u hu
          rcases List.mem_cons.1 hu with hu | hu
          · exact ⟨r, hu ▸ ht⟩
          · exact (ih.1 ⟨L2, hts⟩) u hu
    · intro hall
      obtain ⟨r, hr⟩ := hall t (by simp)
      obtain ⟨L2, hL2⟩ := ih.2 (fun u hu => hall u (by simp [hu]))
      exact ⟨r :: L2, by rw [hr, hL2]⟩

theorem methodMap_ok_nth (env : MEnv) :
    ∀ (ts : List (List Nat)) (L : List (List Nat)),
      methodMap env ts = .ok L →
      L.length = ts.length ∧
      ∀ k, k < ts.length → mmOfTrans env (ts.getD k []) = .ok (L.getD k []) := by
  intro ts
  induction ts with
  | nil =>
    intro L h
    rw [methodMap_nil] at h
    cases h
    exact ⟨rfl, fun k hk => absurd hk (by simp)⟩
  | cons t ts ih =>
    intro L h
    rw [methodMap_cons] at h
    cases ht : mmOfTrans env t with
    | error e => rw [ht] at h; cases h
    | ok r =>
      rw [ht] at h
      cases hts : methodMap env ts with
      | error e => rw [hts] at h; cases h
      | ok L2 =>
        rw [hts] at h
        cases h
        obtain ⟨hlen, hnth⟩ := ih L2 hts
        refine ⟨by simp [hlen], ?_⟩
        intro k hk
        cases k with
        | zero => simpa using ht
        | succ k =>
          simp only [List.getD_cons_succ]
          exact hnth k (by simpa using hk)

/-- Small concrete arena: three methods, all defined, `0` uses `1` and
`1` uses `2`. -/
def env0 : MEnv where
  n := 3
  defined := fun _ => true
  uses := fun i => if i = 0 then [1] else if i = 1 then [2] else []

/-- Two transactions: one uses method `0` directly, one uses method `2`. -/
def ts0 : List (List Nat) := [[0], [2]]

/-- C9: constructing the usage map (`MethodMap.__init__`) raises
exactly when some transaction reaches, directly or through transitively
called methods, an undefined method, or reaches the same method along
two distinct call paths; when neither holds it succeeds and records,
for every transaction, precisely the transitive set of methods it uses
and, for every method, the set of transactions that transitively use
it. -/
theorem C9_usage_map_contract (env : MEnv) (ts : List (List Nat))
    (hwf : env.wf) (hts : ∀ t ∈ ts, t.Nodup ∧ ∀ i ∈ t, i < env.n) :
    ((∃ e, methodMap env ts = .error e) ↔ ∃ t ∈ ts, BadT env t) ∧
    (∀ L, methodMap env ts = .ok L →
      L.length = ts.length ∧
      (∀ k, k < ts.length → ∀ m, (m ∈ L.getD k [] ↔ Reach env (ts.getD k []) m)) ∧
      (∀ m k, k ∈ tbmOf L m ↔ (k < ts.length ∧ Reach env (ts.getD k []) m))) := by
  constructor
  · constructor
    · rintro ⟨e, he⟩
      by_contra hno
      push_neg at hno
      have hall : ∀ t ∈ ts, ∃ r, mmOfTrans env t = .ok r := by
        intro t ht
        exact (mmOfTrans_ok_iff env hwf t (hts t ht).1 (hts t ht).2).2 (hno t ht)
      obtain ⟨L, hL⟩ := (methodMap_ok_iff env ts).2 hall
      rw [hL] at he
      cases he
    · rintro ⟨t, ht, hbad⟩
      cases hres : methodMap env ts with
      | error e => exact ⟨e, rfl⟩
      | ok L =>
        exfalso
        obtain ⟨r, hr⟩ := (methodMap_ok_iff env ts).1 ⟨L, hres⟩ t ht
        exact (mmOfTrans_ok_iff env hwf t (hts t ht).1 (hts t ht).2).1 ⟨r, hr⟩ hbad
  · intro L hL
    obtain ⟨hlen, hnth⟩ := methodMap_ok_nth env ts L hL
    refine ⟨hlen, ?_, ?_⟩
    · intro k hk m
      exact mmOfTrans_ok_mem env (ts.getD k []) (L.getD k []) (hnth k hk) m
    · intro m k
      simp only [tbmOf, List.mem_filter, List.mem_range, decide_eq_true_eq]
      rw [hlen]
      constructor
      · rintro ⟨hk, hm⟩
        exact ⟨hk, (mmOfTrans_ok_mem env _ _ (hnth k hk) m).1 hm⟩
      · rintro ⟨hk, hm⟩
        exact ⟨hk, (mmOfTrans_ok_mem env _ _ (hnth k hk) m).2 hm⟩

/-- Witness: the usage-map contract applied to a concrete arena with a
chain of method calls. -/
theorem C9_usage_map_contract_witness :
    env0.wf ∧ (∀ t ∈ ts0, t.Nodup ∧ ∀ i ∈ t, i < env0.n) ∧
    (((∃ e, methodMap env0 ts0 = .error e) ↔ ∃ t ∈ ts0, BadT env0 t) ∧
     (∀ L, methodMap env0 ts0 = .ok L →
       L.length = ts0.length ∧
       (∀ k, k < ts0.length → ∀ m, (m ∈ L.getD k [] ↔ Reach env0 (ts0.getD k []) m)) ∧
       (∀ m k, k ∈ tbmOf L m ↔ (k < ts0.length ∧ Reach env0 (ts0.getD k []) m)))) :=
  ⟨by decide, by decide, C9_usage_map_contract env0 ts0 (by decide) (by decide)⟩

/-! ## Conflict and priority graphs (`TransactionManager._conflict_graph`)

Relations relate transactions or methods; through the usage map each
relation endpoint expands to the transactions that transitively use it
(`MethodMap.transactions_for`). -/

/-- A relation endpoint: a `Transaction` or a `Method` (arena indices). -/
inductive TorM where
  | trans (t : Nat)
  | meth (m : Nat)
deriving DecidableEq, Repr

/-- The `Priority` enum of `core.py`. -/
inductive Priority where
  | undefined
  | left
  | right
deriving DecidableEq, Repr

/-- One entry of the `relations` list built in
`TransactionManager.elaborate`: `start` is the registering object,
`endp` the `end` field of the `RelationBase` dict. -/
structure Relation where
  start : TorM
  endp : TorM
  priority : Priority
  conflict : Bool
deriving DecidableEq, Repr

/-- The data of a built `MethodMap` consumed by `_conflict_graph`:
the transactions (in registration order), the used methods, the
`nonexclusive` flag of each method, `transactions_by_method`, and the
`def_order` counter value of every object. -/
structure CGEnv where
  transactions : List Nat
  methods : List Nat
  nonexclusive : Nat → Bool
  tbm : Nat → List Nat
  defOrder : TorM → Nat

/-- `MethodMap.transactions_for`: a transaction stands for itself, a
method for the transactions that transitively use it. -/
def transFor (E : CGEnv) : TorM → List Nat
  | .trans t => [t]
  | .meth m => E.tbm m

/-- Edge of the conflict graph `cgr`: either an implicit conflict (two
distinct transactions using the same non-nonexclusive method) or an
explicit conflict relation, expanded through the usage map; `add_edge`
inserts both directions, hence the symmetric disjunction. -/
def cgrEdge (E : CGEnv) (rels : List Relation) (t1 t2 : Nat) : Bool :=
  (E.methods.any fun m =>
    !E.nonexclusive m && decide (t1 ∈ E.tbm m) && decide (t2 ∈ E.tbm m) &&
      decide (t1 ≠ t2)) ||
  (rels.any fun r => r.conflict &&
    ((decide (t1 ∈ transFor E r.start) && decide (t2 ∈ transFor E r.endp)) ||
     (decide (t2 ∈ transFor E r.start) && decide (t1 ∈ transFor E r.endp))))

/-- Edge of the relation graph `rgr`: every `add_edge` call inserts a
(symmetric) edge regardless of priority and conflict. -/
def rgrEdge (E : CGEnv) (rels : List Relation) (t1 t2 : Nat) : Bool :=
  (E.methods.any fun m =>
    !E.nonexclusive m && decide (t1 ∈ E.tbm m) && decide (t2 ∈ E.tbm m) &&
      decide (t1 ≠ t2)) ||
  (rels.any fun r =>
    ((decide (t1 ∈ transFor E r.start) && decide (t2 ∈ transFor E r.endp)) ||
     (decide (t2 ∈ transFor E r.start) && decide (t1 ∈ transFor E r.endp))))

/-- Membership `a ∈ pgr[b]` of the priority graph: `add_edge` adds
`pgr[end].add(begin)` for `Priority.LEFT` and `pgr[begin].add(end)` for
`Priority.RIGHT`, for every expanded transaction pair. -/
def pgrPred (E : CGEnv) (rels : List Relation) (b a : Nat) : Bool :=
  rels.any fun r =>
    (decide (r.priority = .left) && decide (a ∈ transFor E r.start) &&
      decide (b ∈ transFor E r.endp)) ||
    (decide (r.priority = .right) && decide (a ∈ transFor E r.endp) &&
      decide (b ∈ transFor E r.start))

/-- The predecessor list of a transaction in the priority graph, as a
sublist of the registered transactions. -/
def pgrPreds (E : CGEnv) (rels : List Relation) (b : Nat) : List Nat :=
  E.transactions.filter (fun a => pgrPred E rels b a)

theorem cgrEdge_iff (E : CGEnv) (rels : List Relation) (t1 t2 : Nat) :
    cgrEdge E rels t1 t2 = true ↔
      ((∃ m ∈ E.methods, E.nonexclusive m = false ∧ t1 ∈ E.tbm m ∧ t2 ∈ E.tbm m ∧
          t1 ≠ t2) ∨
       (∃ r ∈ rels, r.conflict = true ∧
         ((t1 ∈ transFor E r.start ∧ t2 ∈ transFor E r.endp) ∨
          (t2 ∈ transFor E r.start ∧ t1 ∈ transFor E r.endp)))) := by
  simp [cgrEdge, List.any_eq_true, and_assoc]

theorem cgrEdge_symm (E : CGEnv) (rels : List Relation) (t1 t2 : Nat) :
    cgrEdge E rels t1 t2 = cgrEdge E rels t2 t1 := by
  rw [Bool.eq_iff_iff, cgrEdge_iff, cgrEdge_iff]
  constructor <;> rintro (⟨m, hm, hne, h1, h2, hd⟩ | ⟨r, hr, hc, hor⟩)
  · exact Or.inl ⟨m, hm, hne, h2, h1, hd.symm⟩
  · exact Or.inr ⟨r, hr, hc, hor.symm⟩
  · exact Or.inl ⟨m, hm, hne, h2, h1, hd.symm⟩
  · exact Or.inr ⟨r, hr, hc, hor.symm⟩

/-- Errors of the graph construction: the schedule-order check inside
the relations loop, and a cycle in the priority graph detected during
topological sorting.  `fuelOut` is a fuel artefact, proved
unreachable. -/
inductive CGErr where
  | scheduleOrder
  | cycle
  | fuelOut
deriving DecidableEq, Repr

/-- The raise condition of the relations loop: a non-conflict relation
(added with `schedule_before`) whose `end` was defined strictly before
its `start`. -/
def scheduleOrderBad (E : CGEnv) (r : Relation) : Bool :=
  !r.conflict && decide (E.defOrder r.endp < E.defOrder r.start)

/-- Modelled from the spec: Python's
`graphlib.TopologicalSorter(pgr).static_order()` (the standard library
is not part of the repository sources).  The documented contract is
followed: nodes are emitted in batches whose predecessors have all been
emitted already, and a `CycleError` is raised when no progress is
possible while nodes remain. -/
def kahnGo (preds : Nat → List Nat) : Nat → List Nat → List Nat → Except CGErr (List Nat)
  | _, done, [] => .ok done
  | 0, _, _ :: _ => .error .fuelOut
  | fuel + 1, done, x :: rest =>
    let ready := (x :: rest).filter (fun y => (preds y).all (fun q => decide (q ∈ done)))
    if ready = [] then .error .cycle
    else kahnGo preds fuel (done ++ ready)
      ((x :: rest).filter (fun y => !((preds y).all (fun q => decide (q ∈ done)))))

/-- `TopologicalSorter.static_order` over the given node list. -/
def staticOrder (preds : Nat → List Nat) (nodes : List Nat) : Except CGErr (List Nat) :=
  kahnGo preds (nodes.length + 1) [] nodes

/-- `TransactionManager._conflict_graph`: raise `ScheduleOrderError`
from the relations loop, then topologically sort the priority graph;
on success the returned list orders the transactions (`porder` maps a
transaction to its index in it).  The conflict and relation graphs are
the predicates `cgrEdge` and `rgrEdge`. -/
def conflict_graph (E : CGEnv) (rels : List Relation) : Except CGErr (List Nat) :=
  if rels.any (scheduleOrderBad E) then .error .scheduleOrder
  else staticOrder (pgrPreds E rels) E.transactions

theorem kahnGo_nil (preds : Nat → List Nat) (fuel : Nat) (done : List Nat) :
    kahnGo preds fuel done [] = .ok done := by
  cases fuel <;> rfl

theorem kahnGo_cons (preds : Nat → List Nat) (fuel : Nat) (done : List Nat)
    (x : Nat) (rest : List Nat) :
    kahnGo preds (fuel + 1) done (x :: rest) =
      (if (x :: rest).filter (fun y => (preds y).all (fun q => decide (q ∈ done))) = []
       then .error .cycle
       else kahnGo preds fuel
         (done ++ (x :: rest).filter (fun y => (preds y).all (fun q => decide (q ∈ done))))
         ((x :: rest).filter (fun y => !((preds y).all (fun q => decide (q ∈ done)))))) := rfl

theorem kahn_parts (preds : Nat → List Nat) :
    ∀ (fuel : Nat) (done pending out : List Nat),
      kahnGo preds fuel done pending = .ok out →
      ∃ ext, out = done ++ ext ∧ ext.Perm pending := by
  intro fuel
  induction fuel with
  | zero =>
    intro done pending out h
    cases pending with
    | nil => rw [kahnGo_nil] at h; cases h; exact ⟨[], by simp, by simp⟩
    | cons x rest => simp [kahnGo] at h
  | succ fuel ih =>
    intro done pending out h
    cases pending with
    | nil => rw [kahnGo_nil] at h; cases h; exact ⟨[], by simp, by simp⟩
    | cons x rest =>
      rw [kahnGo_cons] at h
      by_cases hrdy :
          (x :: rest).filter (fun y => (preds y).all (fun q => decide (q ∈ done))) = []
      · rw [if_pos hrdy] at h; cases h
      · rw [if_neg hrdy] at h
        obtain ⟨ext, he, hperm⟩ := ih _ _ _ h
        refine ⟨(x :: rest).filter (fun y => (preds y).all (fun q => decide (q ∈ done)))
          ++ ext, by rw [he]; simp, ?_⟩
        refine ((hperm.append_left _).trans ?_)
        exact List.filter_append_perm _ (x :: rest)

theorem kahn_no_schedule_order (preds : Nat → List Nat) :
    ∀ (fuel : Nat) (done pending : List Nat),
      kahnGo preds fuel done pending ≠ .error .scheduleOrder := by
  intro fuel
  induction fuel with
  | zero =>
    intro done pending
    cases pending with
    | nil => rw [kahnGo_nil]; simp
    | cons x rest => simp [kahnGo]
  | succ fuel ih =>
    intro done pending
    cases pending with
    | nil => rw [kahnGo_nil]; simp
    | cons x rest =>
      rw [kahnGo_cons]
      by_cases hrdy :
          (x :: rest).filter (fun y => (preds y).all (fun q => decide (q ∈ done))) = []
      · rw [if_pos hrdy]; simp
      · rw [if_neg hrdy]; exact ih _ _

theorem kahn_no_fuel (preds : Nat → List Nat) :
    ∀ (fuel : Nat) (done pending : List Nat),
      pending.length ≤ fuel →
      kahnGo preds fuel done pending ≠ .error .fuelOut := by
  intro fuel
  induction fuel with
  | zero =>
    intro done pending hlen
    cases pending with
    | nil => rw [kahnGo_nil]; simp
    | cons x rest => simp at hlen
  | succ fuel ih =>
    intro done pending hlen
    cases pending with
    | nil => rw [kahnGo_nil]; simp
    | cons x rest =>
      rw [kahnGo_cons]
      by_cases hrdy :
          (x :: rest).filter (fun y => (preds y).all (fun q => decide (q ∈ done))) = []
      · rw [if_pos hrdy]; simp
      · rw [if_neg hrdy]
        refine ih _ _ ?_
        have hsub : ((x :: rest).filter
            (fun y => !((preds y).all (fun q => decide (q ∈ done))))).Sublist (x :: rest) :=
          List.filter_sublist _
        have hle := hsub.length_le
        rcases Nat.lt_or_ge (((x :: rest).filter
            (fun y => !((preds y).all (fun q => decide (q ∈ done))))).length)
            ((x :: rest).length) with hlt | hge
        · simp only [List.length_cons] at hlt hlen ⊢
          omega
        · exfalso
          have heq := hsub.eq_of_length (le_antisymm hle hge)
          obtain ⟨y, hy⟩ := List.exists_mem_of_ne_nil _ hrdy
          have hy1 := List.mem_filter.1 hy
          have hy2 : y ∈ (x :: rest).filter
              (fun y => !((preds y).all (fun q => decide (q ∈ done)))) := by
            rw [heq]; exact hy1.1
          have := (List.mem_filter.1 hy2).2
          rw [hy1.2] at this
          cases this

theorem kahn_edge (preds : Nat → List Nat) :
    ∀ (fuel : Nat) (done pending out : List Nat),
      (∀ x ∈ done, x ∉ pending) →
      kahnGo preds fuel done pending = .ok out →
      ∀ a b, b ∈ pending → a ∈ preds b → a ∈ pending →
        out.indexOf a < out.indexOf b := by
  intro fuel
  induction fuel with
  | zero =>
    intro done pending out hdisj h a b hb hab ha
    cases pending with
    | nil => cases hb
    | cons x rest => simp [kahnGo] at h
  | succ fuel ih =>
    intro done pending out hdisj h a b hb hab ha
    cases pending with
    | nil => cases hb
    | cons x rest =>
      rw [kahnGo_cons] at h
      by_cases hrdy :
          (x :: rest).filter (fun y => (preds y).all (fun q => decide (q ∈ done))) = []
      · rw [if_pos hrdy] at h; cases h
      · rw [if_neg hrdy] at h
        set p : Nat → Bool := fun y => (preds y).all (fun q => decide (q ∈ done)) with hp
        set done2 := done ++ (x :: rest).filter p with hdone2
        set pending2 := (x :: rest).filter (fun y => !(p y)) with hpending2
        have hdisj2 : ∀ z ∈ done2, z ∉ pending2 := by
          intro z hz hz2
          have hz2' := List.mem_filter.1 hz2
          rcases List.mem_append.1 hz with hz | hz
          · exact hdisj z hz hz2'.1
          · have := (List.mem_filter.1 hz).2
            rw [this] at hz2'
            simp at hz2'
        by_cases hpb : p b = true
        · exfalso
          have : a ∈ done := by
            have := List.all_eq_true.1 hpb a hab
            simpa using this
          exact hdisj a this ha
        · have hb2 : b ∈ pending2 := List.mem_filter.2 ⟨hb, by simp [hpb]⟩
          by_cases hpa : p a = true
          · have ha2 : a ∈ done2 := by
              refine List.mem_append.2 (Or.inr ?_)
              exact List.mem_filter.2 ⟨ha, hpa⟩
            obtain ⟨ext, he, hperm⟩ := kahn_parts preds fuel done2 pending2 out h
            have hbext : b ∈ ext := hperm.mem_iff.2 hb2
            have hbnd : b ∉ done2 := fun hbd => hdisj2 b hbd hb2
            have hia : out.indexOf a < done2.length := by
              rw [he, List.indexOf_append_of_mem ha2]
              exact List.indexOf_lt_length.2 ha2
            have hib : done2.length ≤ out.indexOf b := by
              rw [he, List.indexOf_append_of_not_mem hbnd]
              omega
            omega
          · have ha2 : a ∈ pending2 := List.mem_filter.2 ⟨ha, by simp [hpa]⟩
            exact ih done2 pending2 out hdisj2 h a b hb2 hab ha2

theorem kahn_nodup (preds : Nat → List Nat) :
    ∀ (fuel : Nat) (done pending out : List Nat),
      done.Nodup → pending.Nodup → (∀ x ∈ done, x ∉ pending) →
      kahnGo preds fuel done pending = .ok out → out.Nodup := by
  intro fuel
  induction fuel with
  | zero =>
    intro done pending out hd hp hdisj h
    cases pending with
    | nil => rw [kahnGo_nil] at h; cases h; exact hd
    | cons x rest => simp [kahnGo] at h
  | succ fuel ih =>
    intro done pending out hd hp hdisj h
    cases pending with
    | nil => rw [kahnGo_nil] at h; cases h; exact hd
    | cons x rest =>
      rw [kahnGo_cons] at h
      by_cases hrdy :
          (x :: rest).filter (fun y => (preds y).all (fun q => decide (q ∈ done))) = []
      · rw [if_pos hrdy] at h; cases h
      · rw [if_neg hrdy] at h
        set p : Nat → Bool := fun y => (preds y).all (fun q => decide (q ∈ done)) with hps
        have hd2 : (done ++ (x :: rest).filter p).Nodup := by
          rw [List.nodup_append]
          refine ⟨hd, hp.filter p, ?_⟩
          intro z hz hz2
          exact hdisj z hz (List.mem_filter.1 hz2).1
        have hp2 : ((x :: rest).filter (fun y => !(p y))).Nodup := hp.filter _
        have hdisj2 : ∀ z ∈ done ++ (x :: rest).filter p,
            z ∉ (x :: rest).filter (fun y => !(p y)) := by
          intro z hz hz2
          have hz2' := List.mem_filter.1 hz2
          rcases List.mem_append.1 hz with hz | hz
          · exact hdisj z hz hz2'.1
          · have := (List.mem_filter.1 hz).2
            rw [this] at hz2'
            simp at hz2'
        exact ih _ _ _ hd2 hp2 hdisj2 h

/-- A nonempty cyclic chain in the predecessor graph: every entry's
cyclic successor is one of its predecessors. -/
def IsCycleL (preds : Nat → List Nat) (c : List Nat) : Prop :=
  c ≠ [] ∧ ∀ k, k < c.length → c.getD ((k + 1) % c.length) 0 ∈ preds (c.getD k 0)

/-- The predecessor graph restricted to the given nodes has a cycle. -/
def HasCycleL (preds : Nat → List Nat) (nodes : List Nat) : Prop :=
  ∃ c, (∀ x ∈ c, x ∈ nodes) ∧ IsCycleL preds c

theorem getD_mem_of_lt {c : List Nat} {k : Nat} (hk : k < c.length) (d : Nat) :
    c.getD k d ∈ c := by
  rw [List.getD_eq_getElem c d hk]
  exact List.getElem_mem hk

theorem kahn_ok_no_cycle (preds : Nat → List Nat) (fuel : Nat) (nodes out : List Nat)
    (h : kahnGo preds fuel [] nodes = .ok out) : ¬ HasCycleL preds nodes := by
  rintro ⟨c, hsub, hne, hcyc⟩
  have hedge := kahn_edge preds fuel [] nodes out (by simp) h
  have hlen1 : 1 ≤ c.length := by
    cases c with
    | nil => exact absurd rfl hne
    | cons y ys => simp
  have hdec : ∀ k, k < c.length →
      out.indexOf (c.getD ((k + 1) % c.length) 0) < out.indexOf (c.getD k 0) := by
    intro k hk
    refine hedge _ _ (hsub _ (getD_mem_of_lt hk 0)) (hcyc k hk)
      (hsub _ (getD_mem_of_lt (Nat.mod_lt _ (by omega)) 0))
  have hchain : ∀ k, k < c.length →
      out.indexOf (c.getD k 0) + k ≤ out.indexOf (c.getD 0 0) := by
    intro k
    induction k with
    | zero => intro _; omega
    | succ k ihk =>
      intro hk1
      have hk : k < c.length := by omega
      have h1 := hdec k hk
      rw [Nat.mod_eq_of_lt hk1] at h1
      have h2 := ihk hk
      omega
  have hlast := hchain (c.length - 1) (by omega)
  have hwrap := hdec (c.length - 1) (by omega)
  have hmod : (c.length - 1 + 1) % c.length = 0 := by
    rw [Nat.sub_add_cancel hlen1, Nat.mod_self]
  rw [hmod] at hwrap
  omega

theorem find?_mem_of_exists (l : List Nat) (pr : Nat → Bool)
    (h : ∃ q ∈ l, pr q = true) :
    ∃ v, l.find? pr = some v ∧ v ∈ l ∧ pr v = true := by
  cases hf : l.find? pr with
  | none =>
    obtain ⟨q, hq, hpq⟩ := h
    rw [List.find?_eq_none] at hf
    exact absurd hpq (by simpa using hf q hq)
  | some v => exact ⟨v, rfl, List.mem_of_find?_eq_some hf, List.find?_some hf⟩

theorem range_map_getD (f : Nat → Nat) (n k d : Nat) (hk : k < n) :
    ((List.range n).map f).getD k d = f k := by
  have hk2 : k < ((List.range n).map f).length := by simp [hk]
  rw [List.getD_eq_getElem _ d hk2]
  simp

/-- From an iteration of a pending-predecessor chooser that repeats,
extract a cycle. -/
theorem cycle_of_iterate (preds : Nat → List Nat) (S : List Nat) (f : Nat → Nat) (x : Nat)
    (hstep : ∀ y ∈ S, f y ∈ preds y ∧ f y ∈ S) (hx : x ∈ S)
    (i j : Nat) (hij : i < j) (heq : f^[i] x = f^[j] x) :
    ∃ c, (∀ z ∈ c, z ∈ S) ∧ IsCycleL preds c := by
  have hgmem : ∀ k, f^[k] x ∈ S := by
    intro k
    induction k with
    | zero => simpa using hx
    | succ k ihk =>
      rw [Function.iterate_succ_apply']
      exact (hstep _ ihk).2
  refine ⟨(List.range (j - i)).map (fun k => f^[i + k] x), ?_, ?_, ?_⟩
  · intro z hz
    obtain ⟨k, -, hk⟩ := List.mem_map.1 hz
    exact hk ▸ hgmem (i + k)
  · have : ((List.range (j - i)).map (fun k => f^[i + k] x)).length = j - i := by simp
    intro hc
    rw [hc] at this
    simp at this
    omega
  · intro k hk
    have hlenc : ((List.range (j - i)).map (fun k => f^[i + k] x)).length = j - i := by simp
    rw [hlenc] at hk ⊢
    have hmodlt : (k + 1) % (j - i) < j - i := Nat.mod_lt _ (by omega)
    rw [range_map_getD _ _ _ _ hk, range_map_getD _ _ _ _ hmodlt]
    have hfstep : f (f^[i + k] x) ∈ preds (f^[i + k] x) := (hstep _ (hgmem _)).1
    have hsucc : f (f^[i + k] x) = f^[i + k + 1] x :=
      (Function.iterate_succ_apply' f (i + k) x).symm
    rcases Nat.lt_or_ge (k + 1) (j - i) with hk1 | hk1
    · rw [Nat.mod_eq_of_lt hk1]
      have : i + (k + 1) = i + k + 1 := by omega
      rw [this, ← hsucc]
      exact hfstep
    · have hkeq : k + 1 = j - i := by omega
      have hmod0 : (k + 1) % (j - i) = 0 := by rw [hkeq, Nat.mod_self]
      rw [hmod0]
      have hji : i + k + 1 = j := by omega
      have : f^[i + 0] x = f^[i + k + 1] x := by
        rw [hji]
        simpa using heq
      rw [this, ← hsucc]
      exact hfstep

/-- When the sorter gets stuck (no progress while nodes remain), the
remaining nodes contain a cycle.  The hypothesis states that every
predecessor of a pending node is either already emitted or pending. -/
theorem kahn_stuck_cycle (preds : Nat → List Nat) :
    ∀ (fuel : Nat) (done pending : List Nat),
      (∀ b a, b ∈ pending → a ∈ preds b → a ∈ done ∨ a ∈ pending) →
      kahnGo preds fuel done pending = .error .cycle →
      ∃ c, (∀ x ∈ c, x ∈ pending) ∧ IsCycleL preds c := by
  intro fuel
  induction fuel with
  | zero =>
    intro done pending huniv h
    cases pending with
    | nil => rw [kahnGo_nil] at h; cases h
    | cons x rest => simp [kahnGo] at h
  | succ fuel ih =>
    intro done pending huniv h
    cases pending with
    | nil => rw [kahnGo_nil] at h; cases h
    | cons x rest =>
      rw [kahnGo_cons] at h
      by_cases hrdy :
          (x :: rest).filter (fun y => (preds y).all (fun q => decide (q ∈ done))) = []
      · -- the sorter is stuck: every pending node has a pending predecessor
        have hbad : ∀ y ∈ x :: rest, ∃ q ∈ preds y, q ∉ done := by
          intro y hy
          have h0 := List.filter_eq_nil_iff.1 hrdy y hy
          rw [List.all_eq_true] at h0
          push_neg at h0
          obtain ⟨q, hq, hqd⟩ := h0
          exact ⟨q, hq, by simpa using hqd⟩
        have hstep : ∀ y ∈ x :: rest,
            (fun y => ((preds y).find? (fun q => !(decide (q ∈ done)))).getD 0) y ∈ preds y ∧
            (fun y => ((preds y).find? (fun q => !(decide (q ∈ done)))).getD 0) y ∈
              x :: rest := by
          intro y hy
          obtain ⟨q, hq, hqd⟩ := hbad y hy
          obtain ⟨v, hv, hvm, hvp⟩ := find?_mem_of_exists
            (preds y) (fun q => !(decide (q ∈ done)))
            ⟨q, hq, by simpa using hqd⟩
          have hfv : ((preds y).find? (fun q => !(decide (q ∈ done)))).getD 0 = v := by
            rw [hv]
            rfl
          have hvnd : v ∉ done := by simpa using hvp
          rcases huniv y v hy hvm with h0 | h0
          · exact absurd h0 hvnd
          · constructor
            · simpa [hfv] using hvm
            · simpa [hfv] using h0
        set f : Nat → Nat :=
          fun y => ((preds y).find? (fun q => !(decide (q ∈ done)))).getD 0 with hfdef
        have hgmem : ∀ k, f^[k] x ∈ x :: rest := by
          intro k
          induction k with
          | zero => simp
          | succ k ihk =>
            rw [Function.iterate_succ_apply']
            exact (hstep _ ihk).2
        have hpig : ∃ i ∈ Finset.range ((x :: rest).length + 1),
            ∃ j ∈ Finset.range ((x :: rest).length + 1), i ≠ j ∧ f^[i] x = f^[j] x := by
          refine Finset.exists_ne_map_eq_of_card_lt_of_maps_to
            (s := Finset.range ((x :: rest).length + 1))
            (t := (x :: rest).toFinset) ?_ ?_
          · have h1 : (x :: rest).toFinset.card ≤ (x :: rest).length :=
              List.toFinset_card_le _
            simp only [Finset.card_range]
            omega
          · intro i _
            simp only [List.mem_toFinset]
            exact hgmem i
        obtain ⟨i, -, j, -, hij, hgij⟩ := hpig
        rcases Nat.lt_or_ge i j with hlt | hge
        · exact cycle_of_iterate preds (x :: rest) f x hstep (by simp) i j hlt hgij
        · have hlt2 : j < i := by omega
          exact cycle_of_iterate preds (x :: rest) f x hstep (by simp) j i hlt2 hgij.symm
      · rw [if_neg hrdy] at h
        set p : Nat → Bool := fun y => (preds y).all (fun q => decide (q ∈ done)) with hps
        have huniv2 : ∀ b a, b ∈ (x :: rest).filter (fun y => !(p y)) → a ∈ preds b →
            a ∈ done ++ (x :: rest).filter p ∨ a ∈ (x :: rest).filter (fun y => !(p y)) := by
          intro b a hb hab
          have hb2 := List.mem_filter.1 hb
          rcases huniv b a hb2.1 hab with h0 | h0
          · exact Or.inl (List.mem_append.2 (Or.inl h0))
          · by_cases hpa : p a = true
            · exact Or.inl (List.mem_append.2 (Or.inr (List.mem_filter.2 ⟨h0, hpa⟩)))
            · exact Or.inr (List.mem_filter.2 ⟨h0, by simp [hpa]⟩)
        obtain ⟨c, hc1, hc2⟩ := ih _ _ huniv2 h
        exact ⟨c, fun z hz => (List.mem_filter.1 (hc1 z hz)).1, hc2⟩

/-- C8: the build raises the schedule-order error exactly when some
non-conflict (schedule-before) relation has its `end` — the entity
scheduled later — defined (smaller `def_order`) strictly before its
`start`, the entity scheduled earlier; relations declared with
`conflict = True` are never subject to this check. -/
theorem C8_schedule_order_validity (E : CGEnv) (rels : List Relation) :
    conflict_graph E rels = .error .scheduleOrder ↔
      ∃ r ∈ rels, r.conflict = false ∧ E.defOrder r.endp < E.defOrder r.start := by
  have hiff : rels.any (scheduleOrderBad E) = true ↔
      ∃ r ∈ rels, r.conflict = false ∧ E.defOrder r.endp < E.defOrder r.start := by
    simp [List.any_eq_true, scheduleOrderBad, Bool.not_eq_true']
  unfold conflict_graph
  by_cases hany : rels.any (scheduleOrderBad E) = true
  · rw [if_pos hany]
    simpa using hiff.1 hany
  · rw [if_neg hany]
    constructor
    · intro h
      exact absurd h (kahn_no_schedule_order (pgrPreds E rels)
        (E.transactions.length + 1) [] E.transactions)
    · intro h
      exact absurd (hiff.2 h) hany

/-- C6: for every priority-bearing relation that survives the build,
the computed linear order places the preferred (earlier-scheduled) side
before the deferred side: with LEFT priority every transaction
transitively using `start` receives a strictly smaller index than every
transaction transitively using `end`, and with RIGHT priority the
reverse; this covers `schedule_before` (a LEFT-priority non-conflict
relation) and prioritized conflicts alike. -/
theorem C6_priority_respects_global_order (E : CGEnv) (rels : List Relation)
    (r : Relation) (hr : r ∈ rels)
    (out : List Nat) (hout : conflict_graph E rels = .ok out)
    (t1 t2 : Nat) (h1 : t1 ∈ transFor E r.start) (h2 : t2 ∈ transFor E r.endp)
    (h1n : t1 ∈ E.transactions) (h2n : t2 ∈ E.transactions) :
    (r.priority = .left → out.indexOf t1 < out.indexOf t2) ∧
    (r.priority = .right → out.indexOf t2 < out.indexOf t1) := by
  have hso : staticOrder (pgrPreds E rels) E.transactions = .ok out := by
    unfold conflict_graph at hout
    by_cases hany : rels.any (scheduleOrderBad E) = true
    · rw [if_pos hany] at hout; cases hout
    · rwa [if_neg hany] at hout
  constructor
  · intro hp
    have hpred : pgrPred E rels t2 t1 = true := by
      unfold pgrPred
      rw [List.any_eq_true]
      exact ⟨r, hr, by simp [hp, h1, h2]⟩
    have hmem : t1 ∈ pgrPreds E rels t2 := List.mem_filter.2 ⟨h1n, hpred⟩
    exact kahn_edge (pgrPreds E rels) (E.transactions.length + 1) [] E.transactions out
      (by simp) hso t1 t2 h2n hmem h1n
  · intro hp
    have hpred : pgrPred E rels t1 t2 = true := by
      unfold pgrPred
      rw [List.any_eq_true]
      exact ⟨r, hr, by simp [hp, h1, h2]⟩
    have hmem : t2 ∈ pgrPreds E rels t1 := List.mem_filter.2 ⟨h2n, hpred⟩
    exact kahn_edge (pgrPreds E rels) (E.transactions.length + 1) [] E.transactions out
      (by simp) hso t2 t1 h1n hmem h2n

/-- C7: with no schedule-order violation, the build fails with a cycle
error exactly when the declared LEFT/RIGHT priorities induce a cycle in
the priority graph; when the priority graph is acyclic it produces an
order assigning every transaction a distinct index. -/
theorem C7_priority_cycle_failure (E : CGEnv) (rels : List Relation)
    (hnd : E.transactions.Nodup)
    (hso : rels.any (scheduleOrderBad E) = false) :
    (conflict_graph E rels = .error .cycle ↔
      HasCycleL (pgrPreds E rels) E.transactions) ∧
    (¬ HasCycleL (pgrPreds E rels) E.transactions →
      ∃ out, conflict_graph E rels = .ok out ∧ out.Nodup ∧
        out.Perm E.transactions ∧
        ∀ t1 t2, t1 ∈ E.transactions → t2 ∈ E.transactions → t1 ≠ t2 →
          out.indexOf t1 < out.length ∧ out.indexOf t1 ≠ out.indexOf t2) := by
  have hcg : conflict_graph E rels = staticOrder (pgrPreds E rels) E.transactions := by
    unfold conflict_graph
    rw [if_neg (by simp [hso])]
  have huniv : ∀ b a, b ∈ E.transactions → a ∈ pgrPreds E rels b →
      a ∈ ([] : List Nat) ∨ a ∈ E.transactions :=
    fun b a _ ha => Or.inr (List.mem_of_mem_filter ha)
  constructor
  · constructor
    · intro h
      rw [hcg] at h
      obtain ⟨c, hc1, hc2⟩ :=
        kahn_stuck_cycle (pgrPreds E rels) (E.transactions.length + 1) [] E.transactions
          huniv h
      exact ⟨c, hc1, hc2⟩
    · intro hcyc
      rw [hcg]
      cases hres : staticOrder (pgrPreds E rels) E.transactions with
      | ok out =>
        exact absurd hcyc (kahn_ok_no_cycle (pgrPreds E rels)
          (E.transactions.length + 1) E.transactions out hres)
      | error e =>
        cases e with
        | cycle => rfl
        | scheduleOrder =>
          exact absurd hres (kahn_no_schedule_order (pgrPreds E rels)
            (E.transactions.length + 1) [] E.transactions)
        | fuelOut =>
          exact absurd hres (kahn_no_fuel (pgrPreds E rels)
            (E.transactions.length + 1) [] E.transactions (by omega))
  · intro hcyc
    rw [hcg]
    cases hres : staticOrder (pgrPreds E rels) E.transactions with
    | error e =>
      cases e with
      | cycle =>
        obtain ⟨c, hc1, hc2⟩ :=
          kahn_stuck_cycle (pgrPreds E rels) (E.transactions.length + 1) []
            E.transactions huniv hres
        exact absurd ⟨c, hc1, hc2⟩ hcyc
      | scheduleOrder =>
        exact absurd hres (kahn_no_schedule_order (pgrPreds E rels)
          (E.transactions.length + 1) [] E.transactions)
      | fuelOut =>
        exact absurd hres (kahn_no_fuel (pgrPreds E rels)
          (E.transactions.length + 1) [] E.transactions (by omega))
    | ok out =>
      refine ⟨out, rfl, ?_, ?_, ?_⟩
      · exact kahn_nodup (pgrPreds E rels) (E.transactions.length + 1) [] E.transactions
          out (by simp) hnd (by simp) hres
      · obtain ⟨ext, he, hperm⟩ :=
          kahn_parts (pgrPreds E rels) (E.transactions.length + 1) [] E.transactions
            out hres
        rw [he]
        simpa using hperm
      · intro t1 t2 ht1 ht2 hne
        obtain ⟨ext, he, hperm⟩ :=
          kahn_parts (pgrPreds E rels) (E.transactions.length + 1) [] E.transactions
            out hres
        have hmem1 : t1 ∈ out := by
          rw [he]
          simpa using hperm.mem_iff.2 ht1
        have hmem2 : t2 ∈ out := by
          rw [he]
          simpa using hperm.mem_iff.2 ht2
        exact ⟨List.indexOf_lt_length.2 hmem1,
          fun h => hne ((List.indexOf_inj hmem1 hmem2).1 h)⟩

/-- Two transactions sharing the exclusive method `0`; method def-order
values are above the transactions' values. -/
def cgE0 : CGEnv where
  transactions := [0, 1]
  methods := [0]
  nonexclusive := fun _ => false
  tbm := fun m => if m = 0 then [0, 1] else []
  defOrder := fun e => match e with
    | .trans t => t
    | .meth _ => 5

/-- Two conflict relations with LEFT priority forming a priority cycle. -/
def rels1 : List Relation :=
  [⟨TorM.trans 0, TorM.trans 1, Priority.left, true⟩,
   ⟨TorM.trans 1, TorM.trans 0, Priority.left, true⟩]

/-- A conflict relation carrying RIGHT priority: its end side
(transaction 1) is the preferred one. -/
def rels2 : List Relation :=
  [⟨TorM.trans 0, TorM.trans 1, Priority.right, true⟩]

/-- Witness: under the RIGHT-priority conflict of `rels2` the build
orders the preferred transaction 1 strictly before transaction 0. -/
theorem C6_priority_respects_global_order_witness :
    conflict_graph cgE0 rels2 = .ok [1, 0] ∧
    ((Priority.right = Priority.left →
       List.indexOf 0 [1, 0] < List.indexOf 1 [1, 0]) ∧
     (Priority.right = Priority.right →
       List.indexOf 1 [1, 0] < List.indexOf 0 [1, 0])) :=
  ⟨rfl, C6_priority_respects_global_order cgE0 rels2
    ⟨TorM.trans 0, TorM.trans 1, Priority.right, true⟩
    (by decide) [1, 0] rfl 0 1 (by decide) (by decide) (by decide) (by decide)⟩

/-- Witness: the cycle characterisation applied to the cyclic priority
declaration `rels1`. -/
theorem C7_priority_cycle_failure_witness :
    cgE0.transactions.Nodup ∧ rels1.any (scheduleOrderBad cgE0) = false ∧
    ((conflict_graph cgE0 rels1 = .error .cycle ↔
      HasCycleL (pgrPreds cgE0 rels1) cgE0.transactions) ∧
     (¬ HasCycleL (pgrPreds cgE0 rels1) cgE0.transactions →
       ∃ out, conflict_graph cgE0 rels1 = .ok out ∧ out.Nodup ∧
         out.Perm cgE0.transactions ∧
         ∀ t1 t2, t1 ∈ cgE0.transactions → t2 ∈ cgE0.transactions → t1 ≠ t2 →
           out.indexOf t1 < out.length ∧ out.indexOf t1 ≠ out.indexOf t2)) :=
  ⟨by decide, rfl, C7_priority_cycle_failure cgE0 rels1 (by decide) rfl⟩

/-! ## Eager deterministic scheduler (`eager_deterministic_cc_scheduler`)

The generated combinational logic for one connected component: the
component's transactions, sorted by the priority order, are processed
in order; the k-th transaction's grant is
`request & runnable & ~Cat(conflicting earlier grants).any()`, where
`runnable` is the conjunction of the `ready` signals of all methods in
`methods_by_transaction[transaction]`. -/

/-- One step per transaction of the scheduler loop; `acc` carries the
(transaction, grant) pairs generated so far, i.e. the grants of the
transactions with smaller indices in the sorted component list. -/
def eagerGo (gr : Nat → Nat → Bool) (request runnable : Nat → Bool) :
    List (Nat × Bool) → List Nat → List (Nat × Bool)
  | acc, [] => acc
  | acc, t :: rest =>
    eagerGo gr request runnable
      (acc ++ [(t, request t && runnable t &&
        !(acc.any (fun p0 => gr t p0.1 && p0.2)))]) rest

/-- The grant assignment generated for a sorted component list. -/
def eagerGrants (gr : Nat → Nat → Bool) (request runnable : Nat → Bool)
    (ccl : List Nat) : List (Nat × Bool) :=
  eagerGo gr request runnable [] ccl

/-- The grant signal of transaction `t` in the generated assignment. -/
def grantIn (l : List (Nat × Bool)) (t : Nat) : Bool :=
  l.any (fun p0 => p0.1 == t && p0.2)

/-- The grant of the k-th transaction of the sorted component list. -/
def grantAt (l : List (Nat × Bool)) (k : Nat) : Bool :=
  (l.getD k (0, false)).2

theorem eagerGo_parts (gr : Nat → Nat → Bool) (request runnable : Nat → Bool) :
    ∀ (l : List Nat) (acc : List (Nat × Bool)),
      ∃ ext, eagerGo gr request runnable acc l = acc ++ ext := by
  intro l
  induction l with
  | nil => intro acc; exact ⟨[], by simp [eagerGo]⟩
  | cons t rest ih =>
    intro acc
    obtain ⟨ext, he⟩ := ih (acc ++ [(t, request t && runnable t &&
      !(acc.any (fun p0 => gr t p0.1 && p0.2)))])
    refine ⟨[(t, request t && runnable t &&
      !(acc.any (fun p0 => gr t p0.1 && p0.2)))] ++ ext, ?_⟩
    rw [eagerGo, he, List.append_assoc]

theorem eagerGo_length (gr : Nat → Nat → Bool) (request runnable : Nat → Bool) :
    ∀ (l : List Nat) (acc : List (Nat × Bool)),
      (eagerGo gr request runnable acc l).length = acc.length + l.length := by
  intro l
  induction l with
  | nil => intro acc; simp [eagerGo]
  | cons t rest ih =>
    intro acc
    rw [eagerGo, ih]
    simp
    omega

/-- Pairwise mutual exclusion of the generated grants along conflict
edges, as an invariant of the scheduler loop. -/
def MutexOk (gr : Nat → Nat → Bool) (l : List (Nat × Bool)) : Prop :=
  ∀ p ∈ l, ∀ q ∈ l, p.1 ≠ q.1 → gr p.1 q.1 = true →
    ¬(p.2 = true ∧ q.2 = true)

theorem eagerGo_mutex (gr : Nat → Nat → Bool) (request runnable : Nat → Bool)
    (hsym : ∀ a b, gr a b = gr b a) :
    ∀ (l : List Nat) (acc : List (Nat × Bool)),
      MutexOk gr acc → MutexOk gr (eagerGo gr request runnable acc l) := by
  intro l
  induction l with
  | nil => intro acc hacc; simpa [eagerGo] using hacc
  | cons t rest ih =>
    intro acc hacc
    rw [eagerGo]
    refine ih _ ?_
    intro p hp q hq hne hedge ⟨hp2, hq2⟩
    rcases List.mem_append.1 hp with hpa | hpn <;>
      rcases List.mem_append.1 hq with hqa | hqn
    · exact hacc p hpa q hqa hne hedge ⟨hp2, hq2⟩
    · -- q is the newly scheduled transaction
      simp only [List.mem_singleton] at hqn
      subst hqn
      simp only at hq2
      rw [Bool.and_eq_true, Bool.and_eq_true] at hq2
      have hany := hq2.2
      rw [Bool.not_eq_true', List.any_eq_false] at hany
      have := hany p hpa
      rw [Bool.and_eq_true] at this
      push_neg at this
      have hgt : gr t p.1 = true := by rw [hsym]; simpa using hedge
      exact this hgt hp2
    · -- p is the newly scheduled transaction
      simp only [List.mem_singleton] at hpn
      subst hpn
      simp only at hp2
      rw [Bool.and_eq_true, Bool.and_eq_true] at hp2
      have hany := hp2.2
      rw [Bool.not_eq_true', List.any_eq_false] at hany
      have := hany q hqa
      rw [Bool.and_eq_true] at this
      push_neg at this
      exact this (by simpa using hedge) hq2
    · simp only [List.mem_singleton] at hpn hqn
      subst hpn; subst hqn
      exact hne rfl

/-- Positional characterisation of the generated grants: the element at
position `acc.length + k` pairs the k-th queued transaction with
`request & runnable & ~(any conflicting earlier grant)`, the earlier
grants being exactly the entries before that position. -/
theorem getD_append_len {α : Type} (l₁ l₂ : List α) (d : α) :
    (l₁ ++ l₂).getD l₁.length d = l₂.getD 0 d := by
  induction l₁ with
  | nil => simp
  | cons a t ih => simpa using ih

theorem eagerGo_getD (gr : Nat → Nat → Bool) (request runnable : Nat → Bool) :
    ∀ (l : List Nat) (acc : List (Nat × Bool)) (k : Nat), k < l.length →
      (eagerGo gr request runnable acc l).getD (acc.length + k) (0, false) =
        (l.getD k 0, request (l.getD k 0) && runnable (l.getD k 0) &&
          !(((eagerGo gr request runnable acc l).take (acc.length + k)).any
            (fun p0 => gr (l.getD k 0) p0.1 && p0.2))) := by
  intro l
  induction l with
  | nil => intro acc k hk; simp at hk
  | cons t rest ih =>
    intro acc k hk
    rw [eagerGo]
    cases k with
    | zero =>
      obtain ⟨ext, he⟩ := eagerGo_parts gr request runnable rest
        (acc ++ [(t, request t && runnable t && !(acc.any (fun p0 => gr t p0.1 && p0.2)))])
      rw [he]
      rw [List.append_assoc]
      have hgd : (acc ++ ([(t, request t && runnable t &&
          !(acc.any (fun p0 => gr t p0.1 && p0.2)))] ++ ext)).getD (acc.length + 0)
          (0, false) = (t, request t && runnable t &&
          !(acc.any (fun p0 => gr t p0.1 && p0.2))) := by
        rw [Nat.add_zero, getD_append_len]
        simp
      rw [hgd]
      have htake : (acc ++ ([(t, request t && runnable t &&
          !(acc.any (fun p0 => gr t p0.1 && p0.2)))] ++ ext)).take (acc.length + 0) =
          acc := by
        rw [Nat.add_zero, List.take_left]
      rw [htake]
      simp
    | succ k =>
      have hlen : (acc ++ [(t, request t && runnable t &&
          !(acc.any (fun p0 => gr t p0.1 && p0.2)))]).length = acc.length + 1 := by
        simp
      have harith : acc.length + (k + 1) =
          (acc ++ [(t, request t && runnable t &&
            !(acc.any (fun p0 => gr t p0.1 && p0.2)))]).length + k := by
        rw [hlen]; omega
      rw [harith]
      have := ih (acc ++ [(t, request t && runnable t &&
        !(acc.any (fun p0 => gr t p0.1 && p0.2)))]) k (by simpa using hk)
      rw [this]
      simp

theorem take_any_range (l : List (Nat × Bool)) (f : Nat × Bool → Bool) :
    ∀ k, k ≤ l.length →
      (l.take k).any f = (List.range k).any (fun j => f (l.getD j (0, false))) := by
  intro k
  induction k with
  | zero => intro _; simp
  | succ k ihk =>
    intro hk1
    have hk : k < l.length := by omega
    rw [List.take_succ, List.range_succ, List.any_append, List.any_append,
      ihk (by omega)]
    congr 1
    simp only [List.any_cons, List.any_nil, Bool.or_false]
    rw [List.getElem?_eq_getElem hk, List.getD_eq_getElem l (0, false) hk]
    simp

theorem any_congr_mem {l : List Nat} {f g : Nat → Bool}
    (h : ∀ x ∈ l, f x = g x) : l.any f = l.any g := by
  induction l with
  | nil => rfl
  | cons x rest ih =>
    simp only [List.any_cons]
    rw [h x (by simp), ih (fun y hy => h y (by simp [hy]))]

/-- C1: for every cycle (valuation of the `request` and `ready` input
signals) and every pair of distinct transactions joined by an edge of
the conflict graph computed by `_conflict_graph` — implicit via a
shared exclusive method or explicit via `add_conflict` — the grants
produced by the eager deterministic scheduler are never both
asserted. -/
theorem C1_mutual_exclusion (E : CGEnv) (rels : List Relation)
    (request runnable : Nat → Bool) (ccl : List Nat)
    (t1 t2 : Nat) (hne : t1 ≠ t2)
    (hedge : cgrEdge E rels t1 t2 = true) :
    ¬(grantIn (eagerGrants (cgrEdge E rels) request runnable ccl) t1 = true ∧
      grantIn (eagerGrants (cgrEdge E rels) request runnable ccl) t2 = true) := by
  rintro ⟨hg1, hg2⟩
  have hmut : MutexOk (cgrEdge E rels)
      (eagerGrants (cgrEdge E rels) request runnable ccl) :=
    eagerGo_mutex (cgrEdge E rels) request runnable
      (fun a b => cgrEdge_symm E rels a b) ccl []
      (fun p hp => absurd hp (List.not_mem_nil p))
  rw [grantIn, List.any_eq_true] at hg1 hg2
  obtain ⟨p, hp, hp2⟩ := hg1
  obtain ⟨q, hq, hq2⟩ := hg2
  rw [Bool.and_eq_true, beq_iff_eq] at hp2 hq2
  refine hmut p hp q hq ?_ ?_ ⟨hp2.2, hq2.2⟩
  · rw [hp2.1, hq2.1]; exact hne
  · rw [hp2.1, hq2.1]; exact hedge

/-- Witness: on the concrete environment `cgE0` (transactions 0 and 1
share exclusive method 0) with everything requesting and ready, the
scheduler grants transaction 0 and not transaction 1. -/
theorem C1_mutual_exclusion_witness :
    (0 : Nat) ≠ 1 ∧ cgrEdge cgE0 [] 0 1 = true ∧
    ¬(grantIn (eagerGrants (cgrEdge cgE0 []) (fun _ => true) (fun _ => true) [0, 1])
        0 = true ∧
      grantIn (eagerGrants (cgrEdge cgE0 []) (fun _ => true) (fun _ => true) [0, 1])
        1 = true) :=
  ⟨by decide, by decide,
    C1_mutual_exclusion cgE0 [] (fun _ => true) (fun _ => true) [0, 1] 0 1
      (by decide) (by decide)⟩

/-- C2: the k-th transaction of a component sorted by priority order is
granted exactly when it requests, every method it transitively uses
(per `methods_by_transaction`) is ready, and no conflict-graph
neighbour with a smaller index in the component is granted; grants are
suppressed only through actual conflict edges to earlier granted
transactions. -/
theorem C2_eager_grant_characterisation (gr : Nat → Nat → Bool)
    (request mready : Nat → Bool) (mbt : Nat → List Nat) (ccl : List Nat)
    (k : Nat) (hk : k < ccl.length) :
    grantAt (eagerGrants gr request (fun t => (mbt t).all mready) ccl) k =
      (request (ccl.getD k 0) && (mbt (ccl.getD k 0)).all mready &&
       !((List.range k).any (fun j =>
         gr (ccl.getD k 0) (ccl.getD j 0) &&
         grantAt (eagerGrants gr request (fun t => (mbt t).all mready) ccl) j))) := by
  have hlen : (eagerGo gr request (fun t => (mbt t).all mready) [] ccl).length =
      ccl.length := by
    rw [eagerGo_length]
    simp
  have hmain := eagerGo_getD gr request (fun t => (mbt t).all mready) ccl [] k hk
  simp only [List.length_nil, Nat.zero_add] at hmain
  show ((eagerGo gr request (fun t => (mbt t).all mready) [] ccl).getD k (0, false)).2 =
    _
  rw [hmain]
  simp only
  congr 2
  rw [take_any_range _ _ k (by omega)]
  refine any_congr_mem ?_
  intro j hj
  have hjk : j < k := List.mem_range.1 hj
  have hfst := congrArg Prod.fst
    (eagerGo_getD gr request (fun t => (mbt t).all mready) ccl [] j (by omega))
  simp only [List.length_nil, Nat.zero_add] at hfst
  rw [hfst]
  rfl

/-- Witness: the grant characterisation at position 1 of a two-element
component with a conflict edge between its members. -/
theorem C2_eager_grant_characterisation_witness :
    (1 : Nat) < ([0, 1] : List Nat).length ∧
    grantAt (eagerGrants (fun a b => decide (a ≠ b)) (fun _ => true)
        (fun _ => true) [0, 1]) 1 =
      (true && true &&
       !((List.range 1).any (fun j =>
         decide ((1 : Nat) ≠ ([0, 1] : List Nat).getD j 0) &&
         grantAt (eagerGrants (fun a b => decide (a ≠ b)) (fun _ => true)
           (fun _ => true) [0, 1]) j))) :=
  ⟨by decide,
    C2_eager_grant_characterisation (fun a b => decide (a ≠ b)) (fun _ => true)
      (fun _ => true) (fun _ => ([] : List Nat)) [0, 1] 1 (by decide)⟩

/-! ## Method construction (`Method.__init__`, `Method.like`) and the
per-method admission logic of `TransactionManager.elaborate` -/

/-- The data of `Method.__init__` needed here: total widths of the
input and output records (`len(Record(i))`) and the `nonexclusive`
flag. -/
structure MethodSig where
  iWidth : Nat
  oWidth : Nat
  nonexclusive : Bool
deriving DecidableEq, Repr

/-- Failure of the `assert len(self.data_in) == 0` guard in
`Method.__init__`. -/
inductive MkErr where
  | assertFailed
deriving DecidableEq, Repr

/-- `Method.__init__`: there is no combiner parameter; a nonexclusive
method asserts that its input record is empty. -/
def mkMethod (i o : Nat) (nonexclusive : Bool) : Except MkErr MethodSig :=
  if nonexclusive && !(i == 0) then .error .assertFailed
  else .ok ⟨i, o, nonexclusive⟩

/-- `Method.like`: a fresh `Method` from `other`'s input and output
layouts; the `nonexclusive` argument is not forwarded, so it takes its
default value `False`. -/
def methodLike (other : MethodSig) : Except MkErr MethodSig :=
  mkMethod other.iWidth other.oWidth false

/-- One recorded caller of a method in `TransactionManager.elaborate`:
the caller's grant value this cycle, the per-use enable value, and the
argument record value from `method_uses`. -/
structure Caller where
  grant : Bool
  enable : Bool
  arg : Nat
deriving DecidableEq, Repr

/-- `method.run`: `granted.any()` where
`granted[n] = transaction.grant & enable`. -/
def methodRun (callers : List Caller) : Bool :=
  callers.any (fun c => c.grant && c.enable)

/-- `method.data_in`: each caller assigns `data_in` under
`If(transaction.grant)`; in the combinational domain the last granted
caller's assignment wins (0, the empty record, when none is
granted). -/
def methodDataIn (callers : List Caller) : Nat :=
  (((callers.filter (fun c => c.grant)).getLast?).map Caller.arg).getD 0

/-- The value observed by a caller of the method: every caller reads
the same `data_out` record. -/
def callerObserves (dataOut : Nat) (_c : Caller) : Nat := dataOut

/-- C10: `Method.like` copies the input and output layouts of the
blueprint method but never its `nonexclusive` flag, which is always
`False` in the copy — the copy of a nonexclusive method is
exclusive. -/
theorem C10_method_like_not_nonexclusive (other : MethodSig) :
    methodLike other = .ok ⟨other.iWidth, other.oWidth, false⟩ := rfl

/-- Counterexample for C3: the claimed scenario cannot be built — a
nonexclusive method with a 3-bit input record fails the constructor
assertion, and the router's input multiplexing is last-grant-wins, not
a caller-supplied minimum combiner (two granted callers passing 3 and
5 yield input 5, not 3). -/
theorem C3_nonexclusive_combiner_counterexample :
    mkMethod 3 0 true = .error .assertFailed ∧
    methodDataIn [⟨true, true, 3⟩, ⟨true, true, 5⟩] = 5 := ⟨rfl, rfl⟩

/-- C3 (amended): a nonexclusive method can be constructed exactly when
its input record is empty — there is no combiner and no method inputs
to combine; when several granted transactions call it in the same cycle
the single `run` bit of the method is asserted (the OR over callers of
`grant & enable`, so the body runs once), and every caller observes the
same `data_out` record. -/
theorem C3_nonexclusive_single_run (i o : Nat) (callers : List Caller)
    (dataOut : Nat) :
    ((∃ s, mkMethod i o true = .ok s) ↔ i = 0) ∧
    (methodRun callers = true ↔ ∃ c ∈ callers, c.grant = true ∧ c.enable = true) ∧
    (∀ c1 ∈ callers, ∀ c2 ∈ callers,
      callerObserves dataOut c1 = callerObserves dataOut c2) := by
  refine ⟨?_, ?_, fun c1 _ c2 _ => rfl⟩
  · unfold mkMethod
    by_cases hi : i = 0
    · subst hi
      simp
    · simp [hi]
  · unfold methodRun
    rw [List.any_eq_true]
    constructor
    · rintro ⟨c, hc, hcc⟩
      rw [Bool.and_eq_true] at hcc
      exact ⟨c, hc, hcc⟩
    · rintro ⟨c, hc, h1, h2⟩
      exact ⟨c, hc, by rw [h1, h2]; rfl⟩

/-! ## Simultaneity merging (`TransactionManager._simultaneous`)

Python `frozenset`s of transactions are represented canonically as
sorted duplicate-free lists, and sets of groups as duplicate-free
lists of groups; iteration order of Python sets, which the source
leaves unspecified, is fixed by these list orders. -/

/-- Ordered duplicate-free insertion. -/
def sinsert (a : Nat) : List Nat → List Nat
  | [] => [a]
  | b :: t =>
    if a < b then a :: b :: t
    else if a = b then b :: t
    else b :: sinsert a t

/-- Canonical (sorted, duplicate-free) form of a finite set of
transactions. -/
def snorm (l : List Nat) : List Nat := l.foldr sinsert []

/-- Union of canonical sets (`group1 | group2`). -/
def sunion (l1 l2 : List Nat) : List Nat := snorm (l1 ++ l2)

/-- Nonempty intersection test (`group1 & group2`). -/
def sinterNE (l1 l2 : List Nat) : Bool := l1.any (fun x => decide (x ∈ l2))

/-- Subset test (`group.issubset(group2)`). -/
def ssubset (l1 l2 : List Nat) : Bool := l1.all (fun x => decide (x ∈ l2))

/-- The whole declaration universe seen by `_simultaneous`: the
pre-merge method and transaction arenas and the list of
`(elem, elem.simultaneous entry)` pairs in iteration order. -/
structure SimUniverse where
  nM : Nat
  nT : Nat
  mDefined : Nat → Bool
  tDefined : Nat → Bool
  mNonexclusive : Nat → Bool
  mUses : Nat → List Nat
  tUses : Nat → List Nat
  sims : List (TorM × List TorM)

def SimUniverse.mmEnv (U : SimUniverse) : MEnv := ⟨U.nM, U.mDefined, U.mUses⟩

def SimUniverse.tsList (U : SimUniverse) : List (List Nat) :=
  (List.range U.nT).map U.tUses

/-- `transactions_for` over the pre-merge usage map. -/
def tforPre (U : SimUniverse) : TorM → List Nat
  | .trans t => [t]
  | .meth m => tbmOf ((methodMap U.mmEnv U.tsList).toOption.getD []) m

/-- All ways of choosing one using transaction per related element
(the recursive generator `rec` of `conflict_for`). -/
def choicesList (tfor : TorM → List Nat) : List TorM → List (List Nat)
  | [] => [[]]
  | e :: rest =>
    (tfor e).flatMap (fun t => (choicesList tfor rest).map (fun c => t :: c))

/-- Step 1 of `_simultaneous`: one conflict set (a set of alternative
groups) per simultaneity declaration. -/
def conflictsInit (U : SimUniverse) : List (List (List Nat)) :=
  U.sims.map (fun p => ((choicesList (tforPre U) (p.1 :: p.2)).map snorm).dedup)

/-- The initial `simultaneous` set: union of all conflict sets. -/
def simInit (U : SimUniverse) : List (List Nat) := (conflictsInit U).flatten.dedup

/-- `conflicting`: both groups appear in the same conflict set. -/
def conflictingG (cfs : List (List (List Nat))) (g1 g2 : List Nat) : Bool :=
  cfs.any (fun cf => decide (g1 ∈ cf) && decide (g2 ∈ cf))

/-- `mergable_pairs`: pair `g1` with every known group it overlaps and
does not conflict with. -/
def mergablePairs (cfs : List (List (List Nat))) (sim : List (List Nat))
    (g1 : List Nat) : List (List Nat × List Nat) :=
  (sim.filter (fun g2 => sinterNE g1 g2 && !(conflictingG cfs g1 g2))).map
    (fun g2 => (g1, g2))

/-- The initial work queue. -/
def queueInit (U : SimUniverse) : List (List Nat × List Nat) :=
  (simInit U).flatMap (mergablePairs (conflictsInit U) (simInit U))

/-- Step 2 of `_simultaneous`: the fixed-point work-queue merge.  A
popped pair is merged; a really new merged group is recorded, enqueued
against the pre-update `simultaneous` set, and added to every conflict
set containing one of its parents.  `none` is the fuel artefact. -/
def simFix : Nat → List (List Nat) → List (List (List Nat)) →
    List (List Nat × List Nat) →
    Option (List (List Nat) × List (List (List Nat)))
  | 0, _, _, _ :: _ => none
  | _, sim, cfs, [] => some (sim, cfs)
  | fuel + 1, sim, cfs, (g1, g2) :: q =>
    let ng := sunion g1 g2
    if ng ∈ sim then simFix fuel sim cfs q
    else
      simFix fuel (sim ++ [ng])
        (cfs.map (fun cf =>
          if (decide (g1 ∈ cf) || decide (g2 ∈ cf)) && !(decide (ng ∈ cf))
          then cf ++ [ng] else cf))
        (q ++ mergablePairs cfs sim ng)

/-- A generous fuel bound for the concrete instances considered. -/
def simFuelOf (U : SimUniverse) : Nat :=
  (2 ^ U.nT + U.sims.length + (simInit U).length + 1) * (2 ^ U.nT + 1)

/-- The merged `simultaneous` set (empty when the fuel runs out). -/
def simMergeOut (U : SimUniverse) : List (List Nat) :=
  ((simFix (simFuelOf U) (simInit U) (conflictsInit U) (queueInit U)).map
    Prod.fst).getD []

/-- Step 3: keep only maximal groups (drop strict subsets). -/
def maximalGroups (sim : List (List Nat)) : List (List Nat) :=
  sim.filter (fun g => !(sim.any (fun g2 => ssubset g g2 && !(g == g2))))

/-- The surviving merged groups of the universe. -/
def pipeGroups (U : SimUniverse) : List (List Nat) :=
  maximalGroups (simMergeOut U)

/-- Step 4: the constituents, converted to proxy methods. -/
def joinedListOf (U : SimUniverse) : List Nat :=
  (List.range U.nT).filter (fun t => (pipeGroups U).any (fun g => decide (t ∈ g)))

/-- The transactions still scheduled independently. -/
def remainingOf (U : SimUniverse) : List Nat :=
  (List.range U.nT).filter (fun t => !((pipeGroups U).any (fun g => decide (t ∈ g))))

/-- The arena index of the proxy method created for constituent `t`
(`methods[transaction]`); proxies are appended after the original
methods. -/
def proxyOf (U : SimUniverse) (t : Nat) : Nat :=
  U.nM + (joinedListOf U).indexOf t

/-- The direct use lists of the post-merge transactions: the remaining
originals keep their uses; each surviving group becomes one synthetic
transaction calling the proxy method of every constituent (step 5). -/
def postUsesOf (U : SimUniverse) : List (List Nat) :=
  (remainingOf U).map U.tUses ++ (pipeGroups U).map (fun g => g.map (proxyOf U))

/-- The post-merge method arena: original methods plus the proxies,
which have no uses of their own and inherit the constituent's `defined`
flag. -/
def postEnvOf (U : SimUniverse) : MEnv where
  n := U.nM + (joinedListOf U).length
  defined := fun i =>
    if i < U.nM then U.mDefined i
    else U.tDefined ((joinedListOf U).getD (i - U.nM) 0)
  uses := fun i => if i < U.nM then U.mUses i else []

/-- The post-merge usage map. -/
def postMM (U : SimUniverse) : Except MMErr (List (List Nat)) :=
  methodMap (postEnvOf U) (postUsesOf U)

/-- The request signal of the k-th post-merge transaction: a remaining
original keeps its request; a synthetic transaction's body is opened
with the default `request=C(1)`. -/
def postRequest (U : SimUniverse) (reqT : Nat → Bool) (k : Nat) : Bool :=
  if k < (remainingOf U).length then reqT ((remainingOf U).getD k 0) else true

/-- The ready signal of a post-merge method: original methods keep
their ready input; a proxy's ready is its constituent's request
(`method.ready = transaction.request`). -/
def postReady (U : SimUniverse) (readyM reqT : Nat → Bool) (m : Nat) : Bool :=
  if m < U.nM then readyM m else reqT ((joinedListOf U).getD (m - U.nM) 0)

/-- The grant of constituent `t` in the elaborated design: `t.grant` is
aliased to its proxy's `run`, which the admission router drives with
the OR over the proxy's callers of `grant & enable` (enables of the
step-5 calls are constant 1). -/
def constituentGrant (U : SimUniverse) (L2 : List (List Nat)) (γ : Nat → Bool)
    (t : Nat) : Bool :=
  (tbmOf L2 (proxyOf U t)).any γ

/-- One expansion step of a connected component: adjoin every node
adjacent to the component. -/
def ccExpand (edge : Nat → Nat → Bool) (nodes : List Nat) (comp : List Nat) :
    List Nat :=
  (comp ++ nodes.filter (fun y => comp.any (fun z => edge z y || edge y z))).dedup

/-- Modelled from the spec: `_graph_ccs` (defined in
`transactions/_utils.py`, which is not among the sources) — the
connected components of the relation graph, one scheduler instance per
component (spec §4.4, §4.2 output description).  The component of a
node is obtained by saturating expansion. -/
def ccFrom (edge : Nat → Nat → Bool) (nodes : List Nat) (x : Nat) : List Nat :=
  (fun c => ccExpand edge nodes c)^[nodes.length] [x]

/-- Modelled from the spec: the list of connected components in node
order. -/
def graphCCs (edge : Nat → Nat → Bool) (nodes : List Nat) : List (List Nat) :=
  nodes.foldl (fun acc x =>
    if acc.any (fun c => decide (x ∈ c)) then acc
    else acc ++ [ccFrom edge nodes x]) []

/-- The `_conflict_graph` environment of the post-merge design (no
relations are declared by the synthetic transactions; `def_order` is
irrelevant without relations). -/
def postCG (U : SimUniverse) (L2 : List (List Nat)) : CGEnv where
  transactions := List.range (postUsesOf U).length
  methods := L2.flatten.dedup
  nonexclusive := fun m => if m < U.nM then U.mNonexclusive m else false
  tbm := tbmOf L2
  defOrder := fun _ => 0

/-- The grant assignment of the elaborated post-merge design: one eager
scheduler per connected component of the relation graph, components
sorted by the computed priority order. -/
def elabSched (U : SimUniverse) (L2 : List (List Nat)) (reqT readyM : Nat → Bool) :
    List (Nat × Bool) :=
  let E := postCG U L2
  let out := (conflict_graph E []).toOption.getD []
  (graphCCs (rgrEdge E []) E.transactions).flatMap
    (fun cc => eagerGrants (cgrEdge E []) (postRequest U reqT)
      (fun k => (L2.getD k []).all (postReady U readyM reqT))
      (out.filter (fun t => decide (t ∈ cc))))

/-- The grant of original constituent transaction `t` in the fully
elaborated design for one cycle's inputs. -/
def elabConstituentGrant (U : SimUniverse) (reqT readyM : Nat → Bool) (t : Nat) :
    Bool :=
  constituentGrant U ((postMM U).toOption.getD [])
    (fun k => grantIn (elabSched U ((postMM U).toOption.getD []) reqT readyM) k) t

/-- The scenario refuting C4: exclusive method 0 is used by
transactions 0 and 1, and the method is declared simultaneous with
transaction 2, producing the two overlapping surviving groups
`{0, 2}` and `{1, 2}`. -/
def U4 : SimUniverse where
  nM := 1
  nT := 3
  mDefined := fun _ => true
  tDefined := fun _ => true
  mNonexclusive := fun _ => false
  mUses := fun _ => []
  tUses := fun t => if t = 0 then [0] else if t = 1 then [0] else []
  sims := [(TorM.meth 0, [TorM.trans 2])]

/-- The scenario refuting C5: two transactions declared simultaneous,
merged into one synthetic transaction. -/
def U5 : SimUniverse where
  nM := 0
  nT := 2
  mDefined := fun _ => true
  tDefined := fun _ => true
  mNonexclusive := fun _ => false
  mUses := fun _ => []
  tUses := fun _ => []
  sims := [(TorM.trans 0, [TorM.trans 1])]

theorem reachP_nil_src (env : MEnv) {p : List Nat} {m : Nat}
    (h : ReachP env [] p m) : False := by
  cases h with
  | direct hm => cases hm
  | step ha _ => cases ha

/-- Reachability from leaf sources (methods with no uses of their own)
is plain membership. -/
theorem reach_leaf (env : MEnv) {src : List Nat}
    (hleaf : ∀ i ∈ src, env.uses i = []) (x : Nat) :
    Reach env src x ↔ x ∈ src := by
  constructor
  · rintro ⟨p, hp⟩
    cases hp with
    | direct hm => exact hm
    | @step _ a m p ha hr =>
      rw [hleaf a ha] at hr
      exact absurd hr (reachP_nil_src env)
  · intro hx
    exact ⟨[], .direct hx⟩

/-- Reachability through a use-closed low segment of the arena stays in
the low segment. -/
theorem reach_low (env : MEnv) (B : Nat)
    (hcl : ∀ i, i < B → ∀ j ∈ env.uses i, j < B) :
    ∀ (src : List Nat) (x : Nat), (∀ i ∈ src, i < B) →
      Reach env src x → x < B := by
  have key : ∀ (src p : List Nat) (x : Nat), ReachP env src p x →
      (∀ i ∈ src, i < B) → x < B := by
    intro src p x hp
    induction hp with
    | direct hm => intro hsrc; exact hsrc _ hm
    | @step src a m p ha _ ih =>
      intro hsrc
      exact ih (hcl a (hsrc a ha))
  rintro src x hsrc ⟨p, hp⟩
  exact key src p x hp hsrc

theorem getD_append_add {α : Type} (l₁ l₂ : List α) (i : Nat) (d : α) :
    (l₁ ++ l₂).getD (l₁.length + i) d = l₂.getD i d := by
  induction l₁ with
  | nil => simp
  | cons a t ih => simpa [Nat.succ_add] using ih

theorem getD_map_of_lt {α β : Type} (l : List α) (f : α → β) (dα : α) (dβ : β)
    (k : Nat) (hk : k < l.length) :
    (l.map f).getD k dβ = f (l.getD k dα) := by
  have hk2 : k < (l.map f).length := by simpa using hk
  rw [List.getD_eq_getElem _ dβ hk2, List.getD_eq_getElem l dα hk]
  simp

theorem getD_mem_lt {α : Type} {c : List α} {k : Nat} (hk : k < c.length) (d : α) :
    c.getD k d ∈ c := by
  rw [List.getD_eq_getElem c d hk]
  exact List.getElem_mem hk

/-- In the post-merge usage map the proxy method of constituent `t` is
called exactly by the synthetic transactions of the surviving groups
containing `t`: remaining original transactions only reach original
methods, and a synthetic transaction's use list is the proxy list of
its group. -/
theorem proxy_callers (U : SimUniverse) (L2 : List (List Nat))
    (hmm2 : postMM U = .ok L2)
    (hU1 : ∀ i, i < U.nM → ∀ j ∈ U.mUses i, j < U.nM)
    (hU2 : ∀ k, k < U.nT → ∀ j ∈ U.tUses k, j < U.nM)
    (hG : ∀ g ∈ pipeGroups U, ∀ u ∈ g, u < U.nT)
    (t : Nat) (ht : ∃ g ∈ pipeGroups U, t ∈ g)
    (k : Nat) (hk : k < (postUsesOf U).length) :
    proxyOf U t ∈ L2.getD k [] ↔
      ((remainingOf U).length ≤ k ∧
        t ∈ (pipeGroups U).getD (k - (remainingOf U).length) []) := by
  obtain ⟨hlen, hnth⟩ := methodMap_ok_nth (postEnvOf U) (postUsesOf U) L2 hmm2
  have hPlen : (postUsesOf U).length =
      (remainingOf U).length + (pipeGroups U).length := by
    simp [postUsesOf]
  have htJ : t ∈ joinedListOf U := by
    obtain ⟨g, hgm, htg⟩ := ht
    refine List.mem_filter.2 ⟨List.mem_range.2 (hG g hgm t htg), ?_⟩
    simp only [List.any_eq_true]
    exact ⟨g, hgm, by simpa using htg⟩
  rcases Nat.lt_or_ge k (remainingOf U).length with hkR | hkR
  · -- a remaining original transaction: it reaches only original methods
    have hPk : (postUsesOf U).getD k [] = U.tUses ((remainingOf U).getD k 0) := by
      unfold postUsesOf
      rw [List.getD_append _ _ [] k (by simpa using hkR)]
      exact getD_map_of_lt (remainingOf U) U.tUses 0 [] k hkR
    have hmem := mmOfTrans_ok_mem (postEnvOf U) ((postUsesOf U).getD k [])
      (L2.getD k []) (hnth k hk) (proxyOf U t)
    constructor
    · intro hpx
      exfalso
      have hreach := hmem.1 hpx
      rw [hPk] at hreach
      have hrt : (remainingOf U).getD k 0 < U.nT := by
        have := getD_mem_lt hkR 0 (c := remainingOf U)
        have := List.mem_filter.1 this
        exact List.mem_range.1 this.1
      have hlow : proxyOf U t < U.nM := by
        refine reach_low (postEnvOf U) U.nM ?_ _ _ (hU2 _ hrt) hreach
        intro i hi j hj
        have : (postEnvOf U).uses i = U.mUses i := by
          simp [postEnvOf, hi]
        rw [this] at hj
        exact hU1 i hi j hj
      unfold proxyOf at hlow
      omega
    · rintro ⟨hge, -⟩
      omega
  · -- a synthetic transaction: its use list is the proxy list of its group
    set idx := k - (remainingOf U).length with hidx
    have hidxlt : idx < (pipeGroups U).length := by omega
    have hPk : (postUsesOf U).getD k [] =
        ((pipeGroups U).getD idx []).map (proxyOf U) := by
      unfold postUsesOf
      have hkeq : k = ((remainingOf U).map U.tUses).length + idx := by
        simp
        omega
      rw [hkeq, getD_append_add]
      exact getD_map_of_lt (pipeGroups U) (fun g => g.map (proxyOf U)) [] [] idx hidxlt
    have hgmem : (pipeGroups U).getD idx [] ∈ pipeGroups U := getD_mem_lt hidxlt []
    have hleaf : ∀ i ∈ ((pipeGroups U).getD idx []).map (proxyOf U),
        (postEnvOf U).uses i = [] := by
      intro i hi
      obtain ⟨u, -, hu⟩ := List.mem_map.1 hi
      have : ¬(i < U.nM) := by
        rw [← hu]
        unfold proxyOf
        omega
      simp [postEnvOf, this]
    have hmem := mmOfTrans_ok_mem (postEnvOf U) ((postUsesOf U).getD k [])
      (L2.getD k []) (hnth k hk) (proxyOf U t)
    rw [hPk] at hmem
    have hiff : proxyOf U t ∈ L2.getD k [] ↔
        proxyOf U t ∈ ((pipeGroups U).getD idx []).map (proxyOf U) := by
      rw [hmem]
      exact reach_leaf (postEnvOf U) hleaf (proxyOf U t)
    rw [hiff]
    constructor
    · intro hpx
      obtain ⟨u, hu, hpu⟩ := List.mem_map.1 hpx
      have huJ : u ∈ joinedListOf U := by
        refine List.mem_filter.2
          ⟨List.mem_range.2 (hG _ hgmem u hu), ?_⟩
        simp only [List.any_eq_true]
        exact ⟨_, hgmem, by simpa using hu⟩
      have hut : u = t := by
        unfold proxyOf at hpu
        have : (joinedListOf U).indexOf u = (joinedListOf U).indexOf t := by omega
        exact (List.indexOf_inj huJ htJ).1 this
      exact ⟨hkR, hut ▸ hu⟩
    · rintro ⟨-, hmemg⟩
      exact List.mem_map.2 ⟨t, hmemg, rfl⟩

/-- C4 (amended): two transactions in the same surviving merged
simultaneity group receive equal grants in every cycle of the
elaborated design, provided each of them belongs to no other surviving
group (the counterexample shows the restriction is necessary: a
transaction shared between two overlapping surviving groups fires with
whichever group is granted). -/
theorem C4_simultaneity_cofire (U : SimUniverse) (L2 : List (List Nat))
    (hmm2 : postMM U = .ok L2)
    (hU1 : ∀ i, i < U.nM → ∀ j ∈ U.mUses i, j < U.nM)
    (hU2 : ∀ k, k < U.nT → ∀ j ∈ U.tUses k, j < U.nM)
    (hG : ∀ g ∈ pipeGroups U, ∀ u ∈ g, u < U.nT)
    (g : List Nat) (hg : g ∈ pipeGroups U)
    (t1 t2 : Nat) (h1 : t1 ∈ g) (h2 : t2 ∈ g)
    (h1u : ∀ g2 ∈ pipeGroups U, t1 ∈ g2 → g2 = g)
    (h2u : ∀ g2 ∈ pipeGroups U, t2 ∈ g2 → g2 = g)
    (γ : Nat → Bool) :
    constituentGrant U L2 γ t1 = constituentGrant U L2 γ t2 := by
  obtain ⟨hlen, -⟩ := methodMap_ok_nth (postEnvOf U) (postUsesOf U) L2 hmm2
  unfold constituentGrant tbmOf
  refine congrArg (fun l => l.any γ) (List.filter_congr ?_)
  intro k hk
  have hk2 : k < (postUsesOf U).length := by
    rw [← hlen]
    exact List.mem_range.1 hk
  have hc1 := proxy_callers U L2 hmm2 hU1 hU2 hG t1 ⟨g, hg, h1⟩ k hk2
  have hc2 := proxy_callers U L2 hmm2 hU1 hU2 hG t2 ⟨g, hg, h2⟩ k hk2
  refine decide_eq_decide.2 ?_
  rw [hc1, hc2]
  rcases Nat.lt_or_ge k (remainingOf U).length with hkR | hkR
  · constructor <;> (rintro ⟨hge, -⟩; omega)
  · have hidxlt : k - (remainingOf U).length < (pipeGroups U).length := by
      have : (postUsesOf U).length =
          (remainingOf U).length + (pipeGroups U).length := by
        simp [postUsesOf]
      omega
    have hgmem : (pipeGroups U).getD (k - (remainingOf U).length) [] ∈ pipeGroups U :=
      getD_mem_lt hidxlt []
    constructor
    · rintro ⟨-, hm1⟩
      exact ⟨hkR, (h1u _ hgmem hm1) ▸ h2⟩
    · rintro ⟨-, hm2⟩
      exact ⟨hkR, (h2u _ hgmem hm2) ▸ h1⟩

/-- Counterexample for C4: in `U4` (transactions 0 and 1 share
exclusive method 0, which is declared simultaneous with transaction 2)
the surviving merged groups are `[0, 2]` and `[1, 2]`, overlapping at
transaction 2; with every request and ready input asserted the
elaborated design grants transaction 2 but not transaction 1, although
both belong to the surviving group `[1, 2]`. -/
theorem C4_simultaneity_cofire_counterexample :
    [1, 2] ∈ pipeGroups U4 ∧ (1 : Nat) ∈ ([1, 2] : List Nat) ∧
    (2 : Nat) ∈ ([1, 2] : List Nat) ∧ (1 : Nat) ≠ 2 ∧
    elabConstituentGrant U4 (fun _ => true) (fun _ => true) 1 = false ∧
    elabConstituentGrant U4 (fun _ => true) (fun _ => true) 2 = true := by
  refine ⟨by decide, by decide, by decide, by decide, ?_, ?_⟩ <;> rfl

/-- Witness: the amended co-firing theorem applied to the merged pair
of `U5`, whose two constituents lie in exactly one surviving group. -/
theorem C4_simultaneity_cofire_witness :
    postMM U5 = .ok [[0, 1]] ∧
    constituentGrant U5 [[0, 1]] (fun _ => true) 0 =
      constituentGrant U5 [[0, 1]] (fun _ => true) 1 :=
  ⟨rfl, C4_simultaneity_cofire U5 [[0, 1]] rfl (by decide) (by decide) (by decide)
    [0, 1] (by decide) 0 1 (by decide) (by decide) (by decide) (by decide)
    (fun _ => true)⟩

/-- Counterexample for C5: in `U5` the two transactions merge into one
surviving group replaced by a single synthetic transaction (no
transaction remains independently scheduled), and the synthetic
transaction's request evaluates to 1 even though the request of every
constituent — in particular the first-registered one, transaction 0 —
is 0: the synthetic request is the constant 1, not the first
constituent's request signal. -/
theorem C5_synthetic_request_counterexample :
    pipeGroups U5 = [[0, 1]] ∧ remainingOf U5 = [] ∧
    postRequest U5 (fun _ => false) 0 = true := ⟨rfl, rfl, rfl⟩

/-- C5 (amended): every surviving maximal group is replaced by exactly
one synthetic transaction — the post-merge transaction list appends one
entry per surviving group after the remaining originals — whose request
is the constant 1 and whose body calls, for every constituent, a proxy
method whose ready is the constituent's request signal; all
constituents are removed from the independently scheduled transaction
list, and the synthetic transaction re-enters the usage-map and
conflict-graph computation through its use list like an ordinary
transaction. -/
theorem C5_synthetic_merged_action (U : SimUniverse) :
    (postUsesOf U).length = (remainingOf U).length + (pipeGroups U).length ∧
    (∀ idx, idx < (pipeGroups U).length →
      (postUsesOf U).getD ((remainingOf U).length + idx) [] =
        ((pipeGroups U).getD idx []).map (proxyOf U)) ∧
    (∀ reqT idx, postRequest U reqT ((remainingOf U).length + idx) = true) ∧
    (∀ t ∈ joinedListOf U, ∀ readyM reqT,
      postReady U readyM reqT (proxyOf U t) = reqT t) ∧
    (∀ t, t < U.nT → (t ∈ remainingOf U ↔ ¬∃ g ∈ pipeGroups U, t ∈ g)) := by
  refine ⟨by simp [postUsesOf], ?_, ?_, ?_, ?_⟩
  · intro idx hidx
    unfold postUsesOf
    have hlen : (remainingOf U).length = ((remainingOf U).map U.tUses).length := by
      simp
    rw [hlen, getD_append_add]
    exact getD_map_of_lt (pipeGroups U) (fun g => g.map (proxyOf U)) [] [] idx hidx
  · intro reqT idx
    unfold postRequest
    rw [if_neg (by omega)]
  · intro t ht readyM reqT
    unfold postReady proxyOf
    rw [if_neg (by omega)]
    congr 1
    rw [Nat.add_sub_cancel_left]
    have hlt : (joinedListOf U).indexOf t < (joinedListOf U).length :=
      List.indexOf_lt_length.2 ht
    rw [List.getD_eq_getElem _ 0 hlt]
    exact List.getElem_indexOf hlt
  · intro t htn
    unfold remainingOf
    rw [List.mem_filter]
    simp only [List.mem_range, htn, true_and, Bool.not_eq_true', List.any_eq_false,
      decide_eq_true_eq]
    push_neg
    rfl

/-- Witness: in `U5` the synthetic transaction created for the single
surviving group requests unconditionally. -/
theorem C5_synthetic_merged_action_witness :
    postRequest U5 (fun _ => false) ((remainingOf U5).length + 0) = true :=
  (C5_synthetic_merged_action U5).2.2.1 (fun _ => false) 0

end CoreblocksTrans

